import Mathlib

/-!
Verification development for the RabhateksDPP filename-normalization scripts.

Strings are modelled as `List Char`.  The definitions below are character-level
translations of the Python functions in `fix_dpp_filenames.py`,
`dpp_cleanup.py` and `auto_fix_dashboard_mapping.py`; the two cleanup scripts
share byte-identical helper functions (`slugify_filename`,
`find_dpp_urls_block`, `replace_urls_in_block`), which are therefore embedded
once.
-/

set_option maxRecDepth 8192

namespace DPP

/-- The single-quote character U+0027, kept out of literals. -/
def squote : Char := Char.ofNat 39

/-- The double-quote character U+0022. -/
def dquote : Char := Char.ofNat 34

/-- Opening brace U+007B. -/
def lbrace : Char := Char.ofNat 123

/-- Closing brace U+007D. -/
def rbrace : Char := Char.ofNat 125

/-- Model of Python `str.lower` applied character-wise; ASCII letters are
lowercased and every other character of interest is its own lowercase form. -/
def pyLower (c : Char) : Char :=
  if 65 ≤ c.toNat ∧ c.toNat ≤ 90 then Char.ofNat (c.toNat + 32) else c

/-- `str.lower` on a whole string. -/
def lowerList (s : List Char) : List Char := s.map pyLower

/-- Python whitespace (`\s`, `str.strip`): space, tab, newline, carriage
return, vertical tab, form feed. -/
def isPySpace (c : Char) : Bool :=
  c.toNat == 32 || c.toNat == 9 || c.toNat == 10 || c.toNat == 13 ||
  c.toNat == 11 || c.toNat == 12

/-- Model of `unicodedata.normalize("NFKC", ·)` as a character-wise
compatibility mapping.  The table covers the characters exercised in this
development (U+2024 ONE DOT LEADER normalizes to a full stop); every ASCII
character and every dash/quote punctuation character appearing in the
replacement table is NFKC-invariant and is mapped to itself. -/
def nfkcChar (c : Char) : List Char :=
  if c = Char.ofNat 0x2024 then [Char.ofNat 46] else [c]

/-- NFKC normalization of a string under the character-wise model. -/
def nfkc (s : List Char) : List Char := s.flatMap nfkcChar

/-- The ordered symbol-substitution table of `slugify_filename`
(`replacements` in both scripts): ampersand becomes a spaced "and", dash
punctuation and separators become hyphens, quote-like punctuation is
removed. -/
def replacements : List (Char × List Char) :=
  [ (Char.ofNat 38, [Char.ofNat 32, 'a', 'n', 'd', Char.ofNat 32]),
    (Char.ofNat 0x2014, ['-']),
    (Char.ofNat 0x2013, ['-']),
    (Char.ofNat 0x2012, ['-']),
    (Char.ofNat 0x2015, ['-']),
    ('_', ['-']),
    ('/', ['-']),
    (':', ['-']),
    (';', ['-']),
    (',', ['-']),
    ('+', ['-']),
    ('#', ['-']),
    ('@', ['-']),
    ('!', []),
    ('?', []),
    (squote, []),
    (dquote, []),
    (Char.ofNat 0x2019, []),
    (Char.ofNat 0x201C, []),
    (Char.ofNat 0x201D, []),
    ('(', ['-']),
    (')', ['-']),
    ('[', ['-']),
    (']', ['-']),
    (lbrace, ['-']),
    (rbrace, ['-']),
    (Char.ofNat 124, ['-']),
    (Char.ofNat 92, ['-']) ]

/-- Python `s.replace(k, v)` for a single-character pattern `k`. -/
def replaceChar (k : Char) (v : List Char) (s : List Char) : List Char :=
  s.flatMap fun c => if c = k then v else [c]

/-- Sequential application of the substitution table, in source order
(`for k, v in replacements.items(): s = s.replace(k, v)`). -/
def applyReplacements (s : List Char) : List Char :=
  replacements.foldl (fun acc p => replaceChar p.1 p.2 acc) s

/-- Run-collapsing scanner: characters satisfying `p` are runs; each maximal
run is emitted as a single character `r`; the flag records being inside a
run. -/
def runCollapse (p : Char → Bool) (r : Char) : Bool → List Char → List Char
  | _, [] => []
  | inRun, c :: t =>
    if p c then
      if inRun then runCollapse p r true t else r :: runCollapse p r true t
    else c :: runCollapse p r false t

/-- Model of `re.sub(r"\s+", "-", s)`: each maximal whitespace run becomes a
single hyphen. -/
def wsToHyphen (s : List Char) : List Char := runCollapse isPySpace '-' false s

/-- Model of `re.sub(r"-{2,}", "-", s)`: each maximal hyphen run becomes a
single hyphen (runs of length one are unchanged). -/
def collapseHyphens (s : List Char) : List Char :=
  runCollapse (· == '-') '-' false s

/-- Python `s.strip()`: drop leading and trailing whitespace. -/
def stripWS (s : List Char) : List Char :=
  ((s.dropWhile isPySpace).reverse.dropWhile isPySpace).reverse

/-- Membership in the strip set of `s.strip("-.")`. -/
def isDashDot (c : Char) : Bool := c == '-' || c == '.'

/-- Python `s.strip("-.")`: drop leading and trailing hyphens and dots. -/
def stripDashDot (s : List Char) : List Char :=
  ((s.dropWhile isDashDot).reverse.dropWhile isDashDot).reverse

/-- The character class kept by `re.sub(r"[^a-z0-9\-.]", "", s)`. -/
def isAllowed (c : Char) : Bool :=
  (97 ≤ c.toNat && c.toNat ≤ 122) || (48 ≤ c.toNat && c.toNat ≤ 57) ||
  c == '-' || c == '.'

/-- True when the character is a dot or a path separator; `os.path.splitext`
scans for the last occurrence of either. -/
def extSep (c : Char) : Bool := c == '.' || c == '/'

/-- Model of `os.path.splitext` (posixpath): split at the last dot, provided
that dot lies after the last path separator and some non-dot character stands
between them (leading dots of the basename never start an extension). -/
def splitext (l : List Char) : List Char × List Char :=
  match l.reverse.dropWhile (fun c => !extSep c) with
  | c :: pre =>
    if c == '.' && (pre.takeWhile fun d => d != '/').any (fun d => d != '.') then
      (pre.reverse, '.' :: (l.reverse.takeWhile fun c => !extSep c).reverse)
    else (l, [])
  | [] => (l, [])

/-- The five characters of ".html". -/
def htmlExt : List Char := ['.', 'h', 't', 'm', 'l']

/-- The four characters of ".htm". -/
def htmExt : List Char := ['.', 'h', 't', 'm']

/-- Extension normalization of `slugify_filename`:
`ext = ".html" if ext.lower() in (".html", ".htm") else ext.lower()`. -/
def extNormalize (e : List Char) : List Char :=
  if lowerList e = htmlExt ∨ lowerList e = htmExt then htmlExt else lowerList e

/-- The base-name pipeline of `slugify_filename`: NFKC-normalize, strip and
lowercase, apply the substitution table, turn whitespace runs into hyphens,
drop disallowed characters, collapse hyphen runs, strip boundary hyphens and
dots. -/
def cleanCore (b : List Char) : List Char :=
  stripDashDot (collapseHyphens
    ((wsToHyphen (applyReplacements (lowerList (stripWS (nfkc b))))).filter isAllowed))

/-- The base-name pipeline with its empty fallback:
`if not s: s = "file"`. -/
def cleanBase (b : List Char) : List Char :=
  if cleanCore b = [] then ['f', 'i', 'l', 'e'] else cleanCore b

/-- `slugify_filename`, shared verbatim by `fix_dpp_filenames.py` and
`dpp_cleanup.py`: normalized base concatenated with the normalized
extension. -/
def slugify_filename (name : List Char) : List Char :=
  cleanBase (splitext name).1 ++ extNormalize (splitext name).2

/-- The pair condition "not two hyphens in a row", used through `List.Chain'`. -/
def NoDoubleHyphen (s : List Char) : Prop :=
  s.Chain' fun a b => ¬(a = '-' ∧ b = '-')

/-- The invariant satisfied by the base part of every slug: non-empty, only
lowercase letters, digits, hyphens and dots, no boundary hyphen or dot, and
no two consecutive hyphens. -/
def ValidBase (s : List Char) : Prop :=
  s ≠ [] ∧ (∀ c ∈ s, isAllowed c = true) ∧
  (∀ c, s.head? = some c → isDashDot c = false) ∧
  (∀ c, s.getLast? = some c → isDashDot c = false) ∧
  NoDoubleHyphen s

/-- A directory entry: a (relative) path, whether it is a regular file, and
its byte content (meaningful for regular files). -/
structure FSEntry where
  name : List Char
  isFile : Bool
  content : List Char
deriving DecidableEq

/-- The names present in the working tree (`os.path.exists` checks these). -/
def namesOf (fs : List FSEntry) : List (List Char) := fs.map FSEntry.name

/-- `os.path.exists`. -/
def existsName (fs : List FSEntry) (n : List Char) : Bool := (namesOf fs).contains n

/-- First entry with the given name. -/
def lookupFS (fs : List FSEntry) (n : List Char) : Option FSEntry :=
  fs.find? fun e => e.name == n

/-- Reading a file's bytes (`open(n).read()`). -/
def readContent (fs : List FSEntry) (n : List Char) : List Char :=
  match lookupFS fs n with
  | some e => e.content
  | none => []

/-- `f.lower().endswith((".html", ".htm"))`. -/
def isHtmlName (n : List Char) : Bool :=
  htmlExt.isSuffixOf (lowerList n) || htmExt.isSuffixOf (lowerList n)

/-- The protected dashboard filename (`DASHBOARD_FILE`). -/
def DASHBOARD : List Char := "RabateksDPPDashboard.html".toList

/-- `DASHBOARD_FILE + BACKUP_SUFFIX`. -/
def BACKUP : List Char := "RabateksDPPDashboard.html.backup".toList

/-- The quarantine directory name of `dpp_cleanup` (`OLD_DIR`). -/
def OLDDIR : List Char := "OLD_FILES".toList

/-- `html_files = [f for f in os.listdir(cwd) if os.path.isfile(f) and
f.lower().endswith((".html", ".htm"))]`, in listing order. -/
def htmlFiles (fs : List FSEntry) : List (List Char) :=
  (fs.filter fun e => e.isFile && isHtmlName e.name).map FSEntry.name

/-- Decimal digits of `m` with structural fuel; called with fuel `m + 1`,
which always suffices because the value shrinks by a factor of ten each
step. -/
def natToCharsGo : Nat → Nat → List Char
  | 0, _ => []
  | fuel + 1, m =>
    if m < 10 then [Nat.digitChar m]
    else natToCharsGo fuel (m / 10) ++ [Nat.digitChar (m % 10)]

/-- Python `str(m)` for a natural number. -/
def natToChars (m : Nat) : List Char := natToCharsGo (m + 1) m

/-- Decimal value of a digit string (used only to prove `natToChars`
injective). -/
def charsVal (l : List Char) : Nat := l.foldl (fun a c => 10 * a + (c.toNat - 48)) 0

/-- The candidate `f"{base}-{i}{ext}"` of the collision loops. -/
def mkCand (base ext : List Char) (i : Nat) : List Char :=
  base ++ '-' :: (natToChars i ++ ext)

/-- The suffix search `i = 2; candidate = f"{base}-{i}{ext}";
while os.path.exists(candidate): i += 1; candidate = ...`.  The first
`names.length + 1` candidates are pairwise distinct, so one of them is
always free and the bounded search returns exactly the loop's first free
candidate; the fallback is unreachable. -/
def resolveSuffix (names : List (List Char)) (base ext : List Char) : List Char :=
  match ((List.range (names.length + 1)).map fun k => mkCand base ext (k + 2)).find?
      (fun c => !names.contains c) with
  | some c => c
  | none => mkCand base ext (names.length + 2)

/-- One iteration of the planning loop of `fix_dpp_filenames.main`: slugify,
resolve a collision against the names on disk (planning precedes every
rename, so `os.path.exists` sees the pre-run state), and record the pair
when old and new differ. -/
def planStep (fs : List FSEntry) (acc : List (List Char × List Char))
    (old : List Char) : List (List Char × List Char) :=
  let new0 := slugify_filename old
  let new1 := if new0 ≠ old ∧ existsName fs new0 = true then
      resolveSuffix (namesOf fs) (splitext new0).1 (splitext new0).2
    else new0
  if new1 ≠ old then acc ++ [(old, new1)] else acc

/-- The rename plan of `fix_dpp_filenames.main` over all HTML files except
the dashboard, in listing order. -/
def buildRenameMapFix (fs : List FSEntry) : List (List Char × List Char) :=
  ((htmlFiles fs).filter fun f => f != DASHBOARD).foldl (planStep fs) []

/-- `os.rename(old, new)`: drop the entry named `old`, drop any entry named
`new` (`rename(2)` replaces an existing destination), and add the moved
entry under the new name.  A missing source does not occur in the runs
modelled here. -/
def renameFS (fs : List FSEntry) (old new1 : List Char) : List FSEntry :=
  match lookupFS fs old with
  | none => fs
  | some e => (fs.filter fun x => !(x.name == old) && !(x.name == new1)) ++
      [{ e with name := new1 }]

/-- The rename loop `for old, new in rename_map.items(): os.rename(old, new)`. -/
def applyRenames (plan : List (List Char × List Char)) (fs : List FSEntry) :
    List FSEntry :=
  plan.foldl (fun acc p => renameFS acc p.1 p.2) fs

/-- `open(n, "w", ...).write(content)`: truncate/replace, creating the file
when absent. -/
def writeFS (fs : List FSEntry) (n content : List Char) : List FSEntry :=
  if existsName fs n = true then
    fs.map fun e => if e.name == n then { e with content := content } else e
  else fs ++ [⟨n, true, content⟩]

/-- The two quote characters of the literal regex. -/
def isQuote (c : Char) : Bool := c == squote || c == dquote

/-- Dictionary lookup `mp.get(k)` (keys are distinct in the modelled runs,
so first-match lookup agrees with the Python dict). -/
def lookupMap (mp : List (List Char × List Char)) (k : List Char) :
    Option (List Char) :=
  (mp.find? fun p => p.1 == k).map Prod.snd

/-- `replace_urls_in_block` (shared by both scripts), as the regex engine
scans: at an opening quote the lazy `[^'\"]+?` takes quote-free characters
up to the next quote; the match succeeds when that quote is the opener and
the run is non-empty, the value is then replaced via `rename_map.get(val,
val)` between the preserved quotes; otherwise scanning resumes one character
later.  Structural fuel `l.length` covers every recursive call. -/
def replaceUrlsGo (mp : List (List Char × List Char)) : Nat → List Char → List Char
  | _, [] => []
  | 0, l => l
  | fuel + 1, c :: t =>
    if isQuote c then
      match t.dropWhile (fun d => !isQuote d) with
      | d :: r =>
        if d == c && !(t.takeWhile fun d => !isQuote d).isEmpty then
          c :: ((lookupMap mp (t.takeWhile fun d => !isQuote d)).getD
            (t.takeWhile fun d => !isQuote d) ++ d :: replaceUrlsGo mp fuel r)
        else c :: replaceUrlsGo mp fuel t
      | [] => c :: replaceUrlsGo mp fuel t
    else c :: replaceUrlsGo mp fuel t

/-- `replace_urls_in_block(block_text, rename_map)`. -/
def replaceUrls (mp : List (List Char × List Char)) (l : List Char) : List Char :=
  replaceUrlsGo mp l.length l

/-- `string_val.finditer` collecting the literal values, same scan as the
substitution. -/
def extractValsGo : Nat → List Char → List (List Char)
  | _, [] => []
  | 0, _ => []
  | fuel + 1, c :: t =>
    if isQuote c then
      match t.dropWhile (fun d => !isQuote d) with
      | d :: r =>
        if d == c && !(t.takeWhile fun d => !isQuote d).isEmpty then
          (t.takeWhile fun d => !isQuote d) :: extractValsGo fuel r
        else extractValsGo fuel t
      | [] => extractValsGo fuel t
    else extractValsGo fuel t

/-- All string-literal values occurring in a block. -/
def extractVals (l : List Char) : List (List Char) := extractValsGo l.length l

/-- Match a literal string at the head of the input, returning the rest. -/
def matchLit : List Char → List Char → Option (List Char)
  | [], l => some l
  | _ :: _, [] => none
  | p :: ps, c :: t => if c == p then matchLit ps t else none

/-- Match the header `const\s+dppUrls\s*=\s*\{` at the head of the input,
returning the rest after the opening brace.  The whitespace classes are
followed by characters disjoint from whitespace, so greedy matching is
exact. -/
def matchHeader (l : List Char) : Option (List Char) :=
  match matchLit "const".toList l with
  | none => none
  | some r1 =>
    if (r1.takeWhile isPySpace).isEmpty then none
    else
      match matchLit "dppUrls".toList (r1.dropWhile isPySpace) with
      | none => none
      | some r2 =>
        match matchLit ['='] (r2.dropWhile isPySpace) with
        | none => none
        | some r3 =>
          match matchLit [lbrace] (r3.dropWhile isPySpace) with
          | none => none
          | some r4 => some r4

/-- The non-greedy body and the close `\}\s*;`: the body runs to the first
closing brace followed by optional whitespace and a semicolon; the second
component is the text from that closing brace on (`html[end:]`). -/
def findClose : List Char → Option (List Char × List Char)
  | [] => none
  | c :: t =>
    if c == rbrace && (match t.dropWhile isPySpace with
        | d :: _ => d == ';'
        | [] => false) then
      some ([], c :: t)
    else
      match findClose t with
      | some (b, p) => some (c :: b, p)
      | none => none

/-- `find_dpp_urls_block` (shared by both scripts): leftmost position where
the header matches and a close follows; returns the spans
`(html[:start], html[start:end], html[end:])` of the Python code, `none`
when no block is found. -/
def findBlock : List Char → Option (List Char × List Char × List Char)
  | [] => none
  | c :: t =>
    match matchHeader (c :: t) with
    | some rest =>
      match findClose rest with
      | some (body, post) =>
        some ((c :: t).take ((c :: t).length - rest.length), body, post)
      | none =>
        match findBlock t with
        | some (pre, b, p) => some (c :: pre, b, p)
        | none => none
    | none =>
      match findBlock t with
      | some (pre, b, p) => some (c :: pre, b, p)
      | none => none

/-- The construction of `mapping_for_block`: a referenced value that is a
plan key maps to its planned target; otherwise a referenced value naming an
existing file whose slug differs maps to that slug (`os.path.exists` is
checked against the given state).  Set/dict iteration order does not affect
the resulting lookups. -/
def mappingForBlock (fs : List FSEntry) (plan : List (List Char × List Char))
    (body : List Char) : List (List Char × List Char) :=
  (extractVals body).filterMap fun ref =>
    match lookupMap plan ref with
    | some tgt => some (ref, tgt)
    | none =>
      if existsName fs ref = true ∧ slugify_filename ref ≠ ref then
        some (ref, slugify_filename ref)
      else none

/-- `main` of `fix_dpp_filenames.py` as a transformation of the directory
state (the `sys.exit(1)` path and the dry-run path leave the state
unchanged): plan against the pre-run state, then, unless `--dry-run`,
perform the renames, create the one-time backup when a mapping block was
found and no backup exists, and write the rewritten dashboard. -/
def mainFix (fs : List FSEntry) (dryRun : Bool) : List FSEntry :=
  if DASHBOARD ∉ htmlFiles fs then fs
  else
    match findBlock (readContent fs DASHBOARD) with
    | none =>
      if dryRun then fs
      else applyRenames (buildRenameMapFix fs) fs
    | some (pre, body, post) =>
      if dryRun then fs
      else
        let fs1 := applyRenames (buildRenameMapFix fs) fs
        let fs2 := if existsName fs1 BACKUP = true then fs1
          else fs1 ++ [⟨BACKUP, true, readContent fs1 DASHBOARD⟩]
        writeFS fs2 DASHBOARD
          (pre ++ replaceUrls (mappingForBlock fs (buildRenameMapFix fs) body) body
            ++ post)

/-- The planning loop of `dpp_cleanup.main`: no collision check at planning
time, only pairs whose slug differs. -/
def buildRenameMapCleanup (fs : List FSEntry) : List (List Char × List Char) :=
  ((htmlFiles fs).filter fun f => f != DASHBOARD).filterMap fun old =>
    if slugify_filename old ≠ old then some (old, slugify_filename old) else none

/-- `conflicts = [v for k, v in rename_map.items() if os.path.exists(v)]`. -/
def conflictsOf (fs : List FSEntry) (plan : List (List Char × List Char)) :
    List (List Char) :=
  plan.filterMap fun p => if existsName fs p.2 = true then some p.2 else none

/-- `os.path.join(cwd, OLD_DIR, c)` as a relative path. -/
def joinOld (c : List Char) : List Char := OLDDIR ++ '/' :: c

/-- The quarantine destination search: the unsuffixed join first, then
`-2`, `-3`, … (the loop re-checks `dst` before each suffix assignment). -/
def resolveMove (names : List (List Char)) (dst : List Char) : List Char :=
  if !names.contains dst then dst
  else resolveSuffix names (splitext dst).1 (splitext dst).2

/-- `os.makedirs(OLD_DIR, exist_ok=True)`. -/
def mkOldDir (fs : List FSEntry) : List FSEntry :=
  if existsName fs OLDDIR = true then fs else fs ++ [⟨OLDDIR, false, []⟩]

/-- `shutil.move(src, dst)` of one conflicting file into the quarantine
directory (a missing source does not occur in the runs modelled here). -/
def moveOne (fs : List FSEntry) (c : List Char) : List FSEntry :=
  match lookupFS fs c with
  | none => fs
  | some e =>
    (fs.filter fun x => !(x.name == c)) ++
      [{ e with name := resolveMove (namesOf fs) (joinOld c) }]

/-- The conflict-securing phase of `dpp_cleanup.main`. -/
def moveConflicts (fs : List FSEntry) (conflicts : List (List Char)) :
    List FSEntry :=
  conflicts.foldl moveOne (mkOldDir fs)

/-- The commit-time rename loop of `dpp_cleanup.main`: skips identical
pairs, re-checks the destination against the current state and falls back
to numeric suffixes before renaming. -/
def renameStepCleanup (acc : List FSEntry) (p : List Char × List Char) :
    List FSEntry :=
  if p.1 = p.2 then acc
  else
    renameFS acc p.1
      (if existsName acc p.2 = true then
        resolveSuffix (namesOf acc) (splitext p.2).1 (splitext p.2).2
      else p.2)

/-- `main` of `dpp_cleanup.py` as a transformation of the directory state:
plan, secure conflicting clean-named files into `OLD_FILES` (only when not
dry-running), then, unless `--dry-run`, rename with the runtime suffix
fallback, create the one-time backup when a mapping block was found, and
write the rewritten dashboard. -/
def mainCleanup (fs : List FSEntry) (dryRun : Bool) : List FSEntry :=
  if DASHBOARD ∉ htmlFiles fs then fs
  else
    let plan := buildRenameMapCleanup fs
    let fsM := if !dryRun && !(conflictsOf fs plan).isEmpty then
        moveConflicts fs (conflictsOf fs plan)
      else fs
    match findBlock (readContent fsM DASHBOARD) with
    | none =>
      if dryRun then fs
      else plan.foldl renameStepCleanup fsM
    | some (pre, body, post) =>
      if dryRun then fs
      else
        let fs1 := plan.foldl renameStepCleanup fsM
        let fs2 := if existsName fs1 BACKUP = true then fs1
          else fs1 ++ [⟨BACKUP, true, readContent fs1 DASHBOARD⟩]
        writeFS fs2 DASHBOARD
          (pre ++ replaceUrls (mappingForBlock fsM plan body) body ++ post)

/-- A scanned segment of a mapping block: one raw character outside any
literal, or a complete quoted literal with its quote character and
(non-empty, quote-free) content. -/
inductive Seg where
  | raw (c : Char)
  | lit (q : Char) (v : List Char)
deriving DecidableEq

/-- State-machine decomposition of a block under the literal regex: outside
any literal a quote opens one; inside, the first quote closes the literal
when it matches the opener and the content is non-empty, and otherwise
flushes the dead opener as raw text and re-opens; other characters
accumulate into the content (held reversed). -/
def parseGo : Option (Char × List Char) → List Char → List Seg
  | none, [] => []
  | some (q, v), [] => Seg.raw q :: v.reverse.map Seg.raw
  | none, c :: t =>
    if isQuote c then parseGo (some (c, [])) t else Seg.raw c :: parseGo none t
  | some (q, v), c :: t =>
    if isQuote c then
      if c = q ∧ v ≠ [] then Seg.lit q v.reverse :: parseGo none t
      else Seg.raw q :: (v.reverse.map Seg.raw ++ parseGo (some (c, [])) t)
    else parseGo (some (q, c :: v)) t

/-- The decomposition of a block. -/
def parseBlock (l : List Char) : List Seg := parseGo none l

/-- Reassemble one segment verbatim. -/
def renderSeg : Seg → List Char
  | Seg.raw c => [c]
  | Seg.lit q v => q :: (v ++ [q])

/-- Reassemble a decomposition verbatim. -/
def renderBlock (segs : List Seg) : List Char := segs.flatMap renderSeg

/-- Reassemble one segment, replacing literal content that is a key of the
map by the mapped value, between the preserved quote characters. -/
def renderSegWith (mp : List (List Char × List Char)) : Seg → List Char
  | Seg.raw c => [c]
  | Seg.lit q v => q :: ((lookupMap mp v).getD v ++ [q])

/-- Reassemble a decomposition applying the plan to literal contents. -/
def renderBlockWith (mp : List (List Char × List Char)) (segs : List Seg) :
    List Char :=
  segs.flatMap (renderSegWith mp)

/-- The em dash U+2014. -/
def emdash : Char := Char.ofNat 0x2014

/-- The one dot leader U+2024 (NFKC-normalizes to a full stop). -/
def dotLeader : Char := Char.ofNat 0x2024

/-- Scenario B directory: the dashboard plus two files that both slugify to
"report-final.html". -/
def fsScenarioB : List FSEntry :=
  [⟨DASHBOARD, true, "x".toList⟩,
   ⟨"Report (final).html".toList, true, "one".toList⟩,
   ⟨"Report (FINAL).html".toList, true, "two".toList⟩]

/-- A directory with two files that both slugify to "a-x.html". -/
def fsLoss : List FSEntry :=
  [⟨DASHBOARD, true, "doc".toList⟩,
   ⟨"A (x).html".toList, true, "contentone".toList⟩,
   ⟨"A (X).html".toList, true, "contenttwo".toList⟩]

/-- A directory whose dashboard has no dppUrls block. -/
def fsNoBlock : List FSEntry :=
  [⟨DASHBOARD, true, "plain text".toList⟩,
   ⟨"My File.html".toList, true, "body".toList⟩]

/-- A dashboard text containing a dppUrls block with one entry. -/
def dashWithBlock : List Char :=
  "const dppUrls = ".toList ++ [lbrace, squote] ++ "k".toList ++
    [squote, ':', Char.ofNat 32, squote] ++ "Old Doc.html".toList ++
    [squote, Char.ofNat 32, rbrace] ++ ";".toList

/-- A directory with a pre-existing backup, a dashboard with a block, and a
pending rename. -/
def fsBk : List FSEntry :=
  [⟨DASHBOARD, true, dashWithBlock⟩,
   ⟨BACKUP, true, "orig".toList⟩,
   ⟨"Old Doc.html".toList, true, "b".toList⟩]

/-- The double-quoted literal whose content holds a single quote. -/
def cexBlock : List Char := [dquote, 'a', squote, 'b', dquote]

/-- The plan mapping that content to "c". -/
def cexPlan : List (List Char × List Char) := [(['a', squote, 'b'], ['c'])]

/-! ### `auto_fix_dashboard_mapping.py` -/

/-- `TARGET_FILENAME` of `auto_fix_dashboard_mapping.py`. -/
def TARGETFN : List Char := "rabateks-dpp-retail-distribution-management.html".toList

/-- The `old_variants` list of `auto_fix_dashboard_mapping.py`. -/
def oldVariants : List (List Char) :=
  [ "Rabateks DPP ".toList ++ [emdash] ++ " Retail/Distribution Management.html".toList,
    "Rabateks DPP ".toList ++ [emdash] ++ " Retail:Distribution Management.html".toList,
    "Rabateks DPP - Retail/Distribution Management.html".toList,
    "Rabateks DPP - Retail:Distribution Management.html".toList ]

/-- True when the first argument is a leading run of the second. -/
def startsWithChars : List Char → List Char → Bool
  | [], _ => true
  | _ :: _, [] => false
  | p :: ps, c :: t => p == c && startsWithChars ps t

/-- Python substring membership `pat in s`. -/
def containsSub (pat : List Char) : List Char → Bool
  | [] => pat.isEmpty
  | c :: t => startsWithChars pat (c :: t) || containsSub pat t

/-- Python `s.replace(pat, rep)` for a multi-character pattern: replace
non-overlapping occurrences left to right, resuming after each replacement.
Structural fuel `s.length` covers every recursive call for a non-empty
pattern. -/
def replaceSubGo (pat rep : List Char) : Nat → List Char → List Char
  | _, [] => []
  | 0, l => l
  | fuel + 1, c :: t =>
    if startsWithChars pat (c :: t) && !pat.isEmpty then
      rep ++ replaceSubGo pat rep fuel ((c :: t).drop pat.length)
    else c :: replaceSubGo pat rep fuel t

/-- `s.replace(pat, rep)`. -/
def replaceSub (pat rep l : List Char) : List Char := replaceSubGo pat rep l.length l

/-- Match the retail-entry pattern
`(["\x27]retail["\x27]\s*:\s*)(["\x27])(?P<val>[^"\x27]+?)(\2)` at the
head of the input: an opening quote of either kind, the literal `retail`, a
closing quote of either kind, optional whitespace, a colon, optional
whitespace, then a quoted value whose lazy content is non-empty and
quote-free and whose closing quote is the same character.  Returns (the
matched prefix up to the value's opening quote, that quote, the value, the
rest after the match); every sub-pattern is followed by a disjoint
character class, so greedy/lazy matching is deterministic. -/
def matchRetail (l : List Char) : Option (List Char × Char × List Char × List Char) :=
  match l with
  | c1 :: r1 =>
    if isQuote c1 then
      match matchLit "retail".toList r1 with
      | some r2 =>
        match r2 with
        | c2 :: r3 =>
          if isQuote c2 then
            match r3.dropWhile isPySpace with
            | b :: r5 =>
              if b == ':' then
                match r5.dropWhile isPySpace with
                | q :: r7 =>
                  if isQuote q then
                    match r7.dropWhile (fun d => !isQuote d) with
                    | d :: r8 =>
                      if d == q && !(r7.takeWhile fun d => !isQuote d).isEmpty then
                        some (l.take (l.length - (q :: r7).length), q,
                          r7.takeWhile (fun d => !isQuote d), r8)
                      else none
                    | [] => none
                  else none
                | [] => none
              else none
            | [] => none
          else none
        | [] => none
      | none => none
    else none
  | [] => none

/-- `pattern.sub(repl, html)` of `auto_fix_dashboard_mapping.py`: scan left
to right; at a match whose value differs from `TARGET_FILENAME`, emit the
group-1 prefix and the target between the preserved quotes and record a
change; at a match whose value already equals the target, emit the match
unchanged; otherwise advance one character.  Also returns the `changed`
flag. -/
def retailSubGo : Nat → List Char → List Char × Bool
  | _, [] => ([], false)
  | 0, l => (l, false)
  | fuel + 1, c :: t =>
    match matchRetail (c :: t) with
    | some (g1, q, v, rest) =>
      if v = TARGETFN then
        ((g1 ++ q :: (v ++ q :: (retailSubGo fuel rest).1)), (retailSubGo fuel rest).2)
      else
        ((g1 ++ q :: (TARGETFN ++ q :: (retailSubGo fuel rest).1)), true)
    | none => ((c :: (retailSubGo fuel t).1), (retailSubGo fuel t).2)

/-- The retail-pattern substitution with its `changed` flag. -/
def retailSub (l : List Char) : List Char × Bool := retailSubGo l.length l

/-- One iteration of the safety-net loop: `if ov in new_html:
new_html = new_html.replace(ov, TARGET_FILENAME); changed = True`. -/
def variantStep (p : List Char × Bool) (ov : List Char) : List Char × Bool :=
  if containsSub ov p.1 = true then (replaceSub ov TARGETFN p.1, true) else p

/-- `main` of `auto_fix_dashboard_mapping.py` as a transformation of the
directory state: abort untouched when the dashboard is missing; create the
one-time backup when absent; rewrite the retail mapping entry and the known
old variant strings; write the dashboard only when something changed. -/
def mainAutoFix (fs : List FSEntry) : List FSEntry :=
  if existsName fs DASHBOARD = true then
    let fs1 := if existsName fs BACKUP = true then fs
      else fs ++ [⟨BACKUP, true, readContent fs DASHBOARD⟩]
    let r := oldVariants.foldl variantStep (retailSub (readContent fs DASHBOARD))
    if r.2 = true then writeFS fs1 DASHBOARD r.1 else fs1
  else fs

/-! ### Theorems -/

theorem toNat_ofNat_of_lt (n : Nat) (h : n < 55296) : (Char.ofNat n).toNat = n := by
  have hv : Nat.isValidChar n := Or.inl h
  simp [Char.ofNat, hv, Char.ofNatAux, Char.toNat, UInt32.toNat, UInt32.ofNatCore,
    BitVec.toNat_ofNat]

theorem isAllowed_toNat {c : Char} (h : isAllowed c = true) :
    (97 ≤ c.toNat ∧ c.toNat ≤ 122) ∨ (48 ≤ c.toNat ∧ c.toNat ≤ 57) ∨
    c.toNat = 45 ∨ c.toNat = 46 := by
  simp only [isAllowed, Bool.or_eq_true, Bool.and_eq_true, decide_eq_true_eq,
    beq_iff_eq] at h
  rcases h with ((h | h) | h) | h
  · exact Or.inl h
  · exact Or.inr (Or.inl h)
  · subst h; exact Or.inr (Or.inr (Or.inl rfl))
  · subst h; exact Or.inr (Or.inr (Or.inr rfl))

theorem allowed_nfkcChar {c : Char} (h : isAllowed c = true) : nfkcChar c = [c] := by
  have hn := isAllowed_toNat h
  have : c ≠ Char.ofNat 0x2024 := by
    intro he
    rw [he] at hn
    revert hn; decide
  simp [nfkcChar, this]

theorem allowed_pyLower {c : Char} (h : isAllowed c = true) : pyLower c = c := by
  have hn := isAllowed_toNat h
  unfold pyLower
  rw [if_neg]; omega

theorem allowed_not_space {c : Char} (h : isAllowed c = true) : isPySpace c = false := by
  have hn := isAllowed_toNat h
  simp only [isPySpace, Bool.or_eq_false_iff, beq_eq_false_iff_ne, ne_eq]
  omega

theorem allowed_ne_key {c : Char} (h : isAllowed c = true) :
    ∀ p ∈ replacements, c ≠ p.1 := by
  intro p hp he
  have h2 : isAllowed p.1 = false := by
    revert hp
    have : ∀ q ∈ replacements, isAllowed q.1 = false := by decide
    exact this p
  rw [he] at h
  rw [h] at h2
  exact Bool.noConfusion h2

theorem dropWhile_eq_self_of_head {p : Char → Bool} {l : List Char}
    (h : ∀ c, l.head? = some c → p c = false) : l.dropWhile p = l := by
  cases l with
  | nil => rfl
  | cons a t =>
    rw [List.dropWhile_cons, if_neg]
    simp [h a rfl]

theorem dropWhile_eq_self_of_all {p : Char → Bool} {l : List Char}
    (h : ∀ c ∈ l, p c = false) : l.dropWhile p = l := by
  apply dropWhile_eq_self_of_head
  intro c hc
  cases l with
  | nil => simp at hc
  | cons a t =>
    simp only [List.head?_cons, Option.some.injEq] at hc
    exact hc ▸ h a (List.mem_cons_self _ _)

theorem nfkc_fixed {s : List Char} (h : ∀ c ∈ s, isAllowed c = true) : nfkc s = s := by
  induction s with
  | nil => rfl
  | cons a t ih =>
    have ha := allowed_nfkcChar (h a (List.mem_cons_self _ _))
    have ht := ih fun c hc => h c (List.mem_cons_of_mem _ hc)
    simp [nfkc] at ht ⊢
    simp [ha, ht]

theorem stripWS_fixed {s : List Char} (h : ∀ c ∈ s, isAllowed c = true) :
    stripWS s = s := by
  unfold stripWS
  rw [dropWhile_eq_self_of_all (fun c hc => allowed_not_space (h c hc))]
  rw [dropWhile_eq_self_of_all (fun c hc => allowed_not_space (h c (List.mem_reverse.mp hc)))]
  exact List.reverse_reverse s

theorem lowerList_fixed {s : List Char} (h : ∀ c ∈ s, isAllowed c = true) :
    lowerList s = s := by
  induction s with
  | nil => rfl
  | cons a t ih =>
    simp only [lowerList, List.map_cons]
    rw [allowed_pyLower (h a (List.mem_cons_self _ _))]
    have := ih fun c hc => h c (List.mem_cons_of_mem _ hc)
    simp only [lowerList] at this
    rw [this]

theorem replaceChar_fixed {k : Char} {v s : List Char}
    (h : ∀ c ∈ s, c ≠ k) : replaceChar k v s = s := by
  induction s with
  | nil => rfl
  | cons a t ih =>
    have ha : a ≠ k := h a (List.mem_cons_self _ _)
    have ht := ih fun c hc => h c (List.mem_cons_of_mem _ hc)
    simp [replaceChar] at ht ⊢
    simp [ha, ht]

theorem applyReplacements_fixed {s : List Char} (h : ∀ c ∈ s, isAllowed c = true) :
    applyReplacements s = s := by
  unfold applyReplacements
  have : ∀ ps : List (Char × List Char),
      (∀ p ∈ ps, ∀ c ∈ s, c ≠ p.1) →
      ps.foldl (fun acc p => replaceChar p.1 p.2 acc) s = s := by
    intro ps
    induction ps with
    | nil => intro _; rfl
    | cons q qs ih =>
      intro hq
      simp only [List.foldl_cons]
      rw [replaceChar_fixed (hq q (List.mem_cons_self _ _))]
      exact ih fun p hp => hq p (List.mem_cons_of_mem _ hp)
  exact this replacements fun p hp c hc => allowed_ne_key (h c hc) p hp

theorem wsToHyphen_fixed {s : List Char} (h : ∀ c ∈ s, isAllowed c = true) :
    wsToHyphen s = s := by
  unfold wsToHyphen
  induction s with
  | nil => rfl
  | cons a t ih =>
    rw [runCollapse]
    rw [if_neg (by simp [allowed_not_space (h a (List.mem_cons_self _ _))])]
    rw [ih fun c hc => h c (List.mem_cons_of_mem _ hc)]

theorem filter_allowed_fixed {s : List Char} (h : ∀ c ∈ s, isAllowed c = true) :
    s.filter isAllowed = s :=
  List.filter_eq_self.mpr h

theorem runCollapse_true_of_head {t : List Char}
    (h : ∀ c, t.head? = some c → (c == '-') = false) :
    runCollapse (· == '-') '-' true t = runCollapse (· == '-') '-' false t := by
  cases t with
  | nil => rfl
  | cons d r =>
    have hd := h d rfl
    rw [runCollapse, runCollapse, if_neg (by simp_all), if_neg (by simp_all)]

theorem collapseHyphens_fixed {s : List Char} (h : NoDoubleHyphen s) :
    collapseHyphens s = s := by
  unfold collapseHyphens
  induction s with
  | nil => rfl
  | cons a t ih =>
    rw [runCollapse]
    by_cases ha : a = '-'
    · subst ha
      rw [if_pos (by simp), if_neg Bool.false_ne_true]
      rw [runCollapse_true_of_head]
      · rw [ih (List.Chain'.tail h)]
      · intro c hc
        have hne := (List.chain'_cons'.mp h).1 c hc
        simp only [beq_eq_false_iff_ne, ne_eq]
        intro he
        exact hne ⟨rfl, he⟩
    · rw [if_neg (by simpa using ha), ih (List.Chain'.tail h)]

theorem stripDashDot_fixed {s : List Char}
    (h1 : ∀ c, s.head? = some c → isDashDot c = false)
    (h2 : ∀ c, s.getLast? = some c → isDashDot c = false) :
    stripDashDot s = s := by
  unfold stripDashDot
  rw [dropWhile_eq_self_of_head h1]
  rw [dropWhile_eq_self_of_head (by simpa [List.head?_reverse] using h2)]
  exact List.reverse_reverse s

theorem head?_dropWhile_not {p : Char → Bool} :
    ∀ {l : List Char} {c : Char}, (l.dropWhile p).head? = some c → p c = false := by
  intro l
  induction l with
  | nil => intro c hc; simp at hc
  | cons a t ih =>
    intro c hc
    rw [List.dropWhile_cons] at hc
    by_cases ha : p a = true
    · exact ih (by simpa [ha] using hc)
    · simp only [ha, Bool.false_eq_true, if_false, List.head?_cons,
        Option.some.injEq] at hc
      simp only [Bool.not_eq_true] at ha
      exact hc ▸ ha

theorem mem_takeWhile_pred {p : Char → Bool} :
    ∀ {l : List Char} {c : Char}, c ∈ l.takeWhile p → p c = true := by
  intro l
  induction l with
  | nil => intro c hc; simp at hc
  | cons a t ih =>
    intro c hc
    rw [List.takeWhile_cons] at hc
    by_cases ha : p a = true
    · simp only [ha, if_true, List.mem_cons] at hc
      rcases hc with hc | hc
      · exact hc ▸ ha
      · exact ih hc
    · simp [ha] at hc

theorem runCollapse_sublist :
    ∀ (s : List Char) (flag : Bool),
      List.Sublist (runCollapse (· == '-') '-' flag s) s := by
  intro s
  induction s with
  | nil => intro flag; rw [runCollapse]
  | cons c t ih =>
    intro flag
    rw [runCollapse]
    by_cases hc : (c == '-') = true
    · rw [if_pos hc]
      have hc2 : c = '-' := by simpa using hc
      subst hc2
      cases flag with
      | true => exact (ih true).cons _
      | false => exact (ih true).cons₂ _
    · rw [if_neg hc]
      exact (ih false).cons₂ _

theorem collapseHyphens_sublist (s : List Char) : List.Sublist (collapseHyphens s) s :=
  runCollapse_sublist s false

theorem runCollapse_true_head :
    ∀ {t : List Char} {c : Char},
      (runCollapse (· == '-') '-' true t).head? = some c → c ≠ '-' := by
  intro t
  induction t with
  | nil => intro c hc; rw [runCollapse] at hc; simp at hc
  | cons d r ih =>
    intro c hc
    rw [runCollapse] at hc
    by_cases hd : (d == '-') = true
    · rw [if_pos hd, if_pos rfl] at hc
      exact ih hc
    · rw [if_neg hd] at hc
      simp only [List.head?_cons, Option.some.injEq] at hc
      subst hc
      simpa using hd

theorem runCollapse_chain :
    ∀ (s : List Char) (flag : Bool),
      NoDoubleHyphen (runCollapse (· == '-') '-' flag s) := by
  intro s
  induction s with
  | nil => intro flag; rw [runCollapse]; exact List.chain'_nil
  | cons c t ih =>
    intro flag
    rw [runCollapse]
    by_cases hc : (c == '-') = true
    · rw [if_pos hc]
      cases flag with
      | true => rw [if_pos rfl]; exact ih true
      | false =>
        rw [if_neg Bool.false_ne_true]
        apply List.chain'_cons'.mpr
        refine ⟨?_, ih true⟩
        intro y hy hpair
        exact runCollapse_true_head hy hpair.2
    · rw [if_neg hc]
      apply List.chain'_cons'.mpr
      refine ⟨?_, ih false⟩
      intro y _ hpair
      rw [hpair.1] at hc
      exact hc (by simp)

theorem collapseHyphens_chain (s : List Char) : NoDoubleHyphen (collapseHyphens s) :=
  runCollapse_chain s false

theorem chain'_dropWhile {R : Char → Char → Prop} {p : Char → Bool} :
    ∀ {l : List Char}, l.Chain' R → (l.dropWhile p).Chain' R := by
  intro l
  induction l with
  | nil => intro h; exact h
  | cons a t ih =>
    intro h
    rw [List.dropWhile_cons]
    by_cases ha : p a = true
    · simp only [ha, if_true]
      exact ih (List.Chain'.tail h)
    · simp only [ha, Bool.false_eq_true, if_false]
      exact h

theorem noDoubleHyphen_reverse {s : List Char} (h : NoDoubleHyphen s) :
    NoDoubleHyphen s.reverse := by
  unfold NoDoubleHyphen at h ⊢
  rw [List.chain'_reverse]
  exact h.imp fun a b hab hpair => hab ⟨hpair.2, hpair.1⟩

theorem noDoubleHyphen_stripDashDot {s : List Char} (h : NoDoubleHyphen s) :
    NoDoubleHyphen (stripDashDot s) := by
  unfold stripDashDot
  exact noDoubleHyphen_reverse (chain'_dropWhile
    (noDoubleHyphen_reverse (chain'_dropWhile h)))

theorem stripDashDot_subset {s : List Char} :
    ∀ c ∈ stripDashDot s, c ∈ s := by
  intro c hc
  unfold stripDashDot at hc
  rw [List.mem_reverse] at hc
  have h1 := (List.dropWhile_sublist _).subset hc
  rw [List.mem_reverse] at h1
  exact (List.dropWhile_sublist _).subset h1

theorem stripDashDot_head {s : List Char} {c : Char}
    (h : (stripDashDot s).head? = some c) : isDashDot c = false := by
  unfold stripDashDot at h
  set a := s.dropWhile isDashDot with ha
  set d := a.reverse.dropWhile isDashDot with hd
  have hsplit : a.reverse = a.reverse.takeWhile isDashDot ++ d :=
    (List.takeWhile_append_dropWhile _ _).symm
  have ha2 : a = d.reverse ++ (a.reverse.takeWhile isDashDot).reverse := by
    have := congrArg List.reverse hsplit
    simpa using this
  cases hdr : d.reverse with
  | nil => rw [hdr] at h; simp at h
  | cons x xs =>
    rw [hdr] at h
    simp only [List.head?_cons, Option.some.injEq] at h
    have hx : a.head? = some x := by
      rw [ha2, hdr]; rfl
    exact h ▸ head?_dropWhile_not hx

theorem stripDashDot_getLast {s : List Char} {c : Char}
    (h : (stripDashDot s).getLast? = some c) : isDashDot c = false := by
  unfold stripDashDot at h
  rw [List.getLast?_reverse] at h
  exact head?_dropWhile_not h

theorem validBase_file : ValidBase ['f', 'i', 'l', 'e'] := by
  refine ⟨by simp, by decide, ?_, ?_, ?_⟩
  · intro c hc
    simp only [List.head?_cons, Option.some.injEq] at hc
    subst hc; decide
  · intro c hc
    have he : (['f', 'i', 'l', 'e'] : List Char).getLast? = some 'e' := rfl
    rw [he] at hc
    injection hc with hc
    subst hc; decide
  · unfold NoDoubleHyphen
    refine List.chain'_cons.mpr ⟨by decide, List.chain'_cons.mpr ⟨by decide,
      List.chain'_cons.mpr ⟨by decide, List.chain'_singleton _⟩⟩⟩

theorem validBase_strip_collapse_filter {y : List Char}
    (hnil : stripDashDot (collapseHyphens (y.filter isAllowed)) ≠ []) :
    ValidBase (stripDashDot (collapseHyphens (y.filter isAllowed))) := by
  refine ⟨hnil, ?_, ?_, ?_, ?_⟩
  · intro c hc
    have h5 := stripDashDot_subset c hc
    have h4 := (collapseHyphens_sublist _).subset h5
    exact List.of_mem_filter h4
  · intro c hc; exact stripDashDot_head hc
  · intro c hc; exact stripDashDot_getLast hc
  · exact noDoubleHyphen_stripDashDot (collapseHyphens_chain _)

theorem validBase_cleanCore {b : List Char} (hnil : cleanCore b ≠ []) :
    ValidBase (cleanCore b) := by
  unfold cleanCore at hnil ⊢
  generalize hX : wsToHyphen (applyReplacements (lowerList (stripWS (nfkc b)))) = y
    at hnil ⊢
  exact validBase_strip_collapse_filter hnil

theorem validBase_cleanBase (b : List Char) : ValidBase (cleanBase b) := by
  unfold cleanBase
  by_cases hnil : cleanCore b = []
  · rw [if_pos hnil]; exact validBase_file
  · rw [if_neg hnil]; exact validBase_cleanCore hnil

theorem cleanCore_of_valid {s : List Char} (h : ValidBase s) : cleanCore s = s := by
  obtain ⟨hne, hall, hhead, hlast, hchain⟩ := h
  unfold cleanCore
  rw [nfkc_fixed hall, stripWS_fixed hall, lowerList_fixed hall,
    applyReplacements_fixed hall, wsToHyphen_fixed hall, filter_allowed_fixed hall,
    collapseHyphens_fixed hchain, stripDashDot_fixed hhead hlast]

theorem cleanBase_of_valid {s : List Char} (h : ValidBase s) : cleanBase s = s := by
  unfold cleanBase
  rw [cleanCore_of_valid h, if_neg h.1]

theorem cleanBase_idem (b : List Char) : cleanBase (cleanBase b) = cleanBase b :=
  cleanBase_of_valid (validBase_cleanBase b)

theorem takeWhile_append_all {p : Char → Bool} {l1 l2 : List Char}
    (h : ∀ c ∈ l1, p c = true) :
    (l1 ++ l2).takeWhile p = l1 ++ l2.takeWhile p := by
  induction l1 with
  | nil => rfl
  | cons a t ih =>
    rw [List.cons_append, List.takeWhile_cons, if_pos (h a (List.mem_cons_self _ _)),
      ih fun c hc => h c (List.mem_cons_of_mem _ hc), List.cons_append]

theorem dropWhile_append_all {p : Char → Bool} {l1 l2 : List Char}
    (h : ∀ c ∈ l1, p c = true) :
    (l1 ++ l2).dropWhile p = l2.dropWhile p := by
  induction l1 with
  | nil => rfl
  | cons a t ih =>
    rw [List.cons_append, List.dropWhile_cons, if_pos (h a (List.mem_cons_self _ _))]
    exact ih fun c hc => h c (List.mem_cons_of_mem _ hc)

theorem takeWhile_eq_self_of_all {p : Char → Bool} {l : List Char}
    (h : ∀ c ∈ l, p c = true) : l.takeWhile p = l := by
  induction l with
  | nil => rfl
  | cons a t ih =>
    rw [List.takeWhile_cons, if_pos (h a (List.mem_cons_self _ _)),
      ih fun c hc => h c (List.mem_cons_of_mem _ hc)]

/-- Case reduction for splitext when the reversed name starts (after the
separator-free tail) with some character. -/
theorem splitext_cons {l : List Char} {c : Char} {pre : List Char}
    (h : l.reverse.dropWhile (fun c => !extSep c) = c :: pre) :
    splitext l =
      if (c == '.' && (pre.takeWhile fun d => d != '/').any fun d => d != '.') = true
      then (pre.reverse, '.' :: (l.reverse.takeWhile fun c => !extSep c).reverse)
      else (l, []) := by
  unfold splitext
  rw [h]

/-- splitext on a name that decomposes as base ++ "." ++ tail, with a
separator-free tail, a slash-free base and a non-dot character in the base,
recovers exactly that decomposition. -/
theorem splitext_append {b t : List Char}
    (hb1 : ∀ c ∈ b, c ≠ '/') (hb2 : ∃ c ∈ b, c ≠ '.')
    (ht : ∀ c ∈ t, extSep c = false) :
    splitext (b ++ '.' :: t) = (b, '.' :: t) := by
  have hrev : (b ++ '.' :: t).reverse = t.reverse ++ '.' :: b.reverse := by
    simp
  have hmemrev : ∀ c ∈ t.reverse, (!extSep c) = true := by
    intro c hc
    rw [List.mem_reverse] at hc
    simp [ht c hc]
  have hdrop : (b ++ '.' :: t).reverse.dropWhile (fun c => !extSep c) =
      '.' :: b.reverse := by
    rw [hrev, dropWhile_append_all hmemrev, List.dropWhile_cons, if_neg (by decide)]
  have htake : (b ++ '.' :: t).reverse.takeWhile (fun c => !extSep c) = t.reverse := by
    rw [hrev, takeWhile_append_all hmemrev, List.takeWhile_cons, if_neg (by decide),
      List.append_nil]
  rw [splitext_cons hdrop]
  have hcond : (('.' : Char) == '.'
      && (b.reverse.takeWhile fun d => d != '/').any fun d => d != '.') = true := by
    rw [takeWhile_eq_self_of_all (by
      intro c hc
      rw [List.mem_reverse] at hc
      simpa using hb1 c hc)]
    obtain ⟨c, hc, hcd⟩ := hb2
    simp only [Bool.and_eq_true, beq_self_eq_true, true_and, List.any_eq_true]
    exact ⟨c, List.mem_reverse.mpr hc, by simpa using hcd⟩
  rw [if_pos hcond, htake]
  simp

/-- The extension returned by splitext is empty or a dot followed by
separator-free characters. -/
theorem splitext_ext_shape (name : List Char) :
    (splitext name).2 = [] ∨
    ∃ t, (splitext name).2 = '.' :: t ∧ ∀ c ∈ t, extSep c = false := by
  cases hr : name.reverse.dropWhile (fun c => !extSep c) with
  | nil =>
    left
    unfold splitext
    rw [hr]
  | cons c pre =>
    rw [splitext_cons hr]
    by_cases hc : (c == '.'
        && (pre.takeWhile fun d => d != '/').any fun d => d != '.') = true
    · rw [if_pos hc]
      right
      refine ⟨_, rfl, ?_⟩
      intro d hd
      rw [List.mem_reverse] at hd
      have := mem_takeWhile_pred hd
      simpa using this
    · rw [if_neg hc]
      simp

theorem pyLower_toNat {c : Char} :
    (65 ≤ c.toNat ∧ c.toNat ≤ 90 ∧ (pyLower c).toNat = c.toNat + 32) ∨
    (¬(65 ≤ c.toNat ∧ c.toNat ≤ 90) ∧ pyLower c = c) := by
  unfold pyLower
  by_cases h : 65 ≤ c.toNat ∧ c.toNat ≤ 90
  · rw [if_pos h]
    exact Or.inl ⟨h.1, h.2, toNat_ofNat_of_lt _ (by omega)⟩
  · rw [if_neg h]
    exact Or.inr ⟨h, rfl⟩

theorem pyLower_not_upper {d : Char} (h : ¬(65 ≤ d.toNat ∧ d.toNat ≤ 90)) :
    pyLower d = d := by
  unfold pyLower
  exact if_neg h

theorem pyLower_idem (c : Char) : pyLower (pyLower c) = pyLower c := by
  rcases pyLower_toNat (c := c) with ⟨h1, h2, h3⟩ | ⟨_, h2⟩
  · exact pyLower_not_upper (by omega)
  · simp [h2]

theorem lowerList_idem (s : List Char) : lowerList (lowerList s) = lowerList s := by
  unfold lowerList
  rw [List.map_map]
  exact List.map_congr_left fun c _ => pyLower_idem c

theorem extSep_pyLower {c : Char} (h : extSep c = false) : extSep (pyLower c) = false := by
  rcases pyLower_toNat (c := c) with ⟨h1, _, h3⟩ | ⟨_, h2⟩
  · simp only [extSep, Bool.or_eq_false_iff, beq_eq_false_iff_ne, ne_eq]
    have hdot : ('.' : Char).toNat = 46 := rfl
    have hslash : ('/' : Char).toNat = 47 := rfl
    constructor
    · intro he
      rw [he, hdot] at h3
      omega
    · intro he
      rw [he, hslash] at h3
      omega
  · rw [h2]; exact h

theorem extNormalize_shape {t : List Char} (ht : ∀ c ∈ t, extSep c = false) :
    ∃ t', extNormalize ('.' :: t) = '.' :: t' ∧ ∀ c ∈ t', extSep c = false := by
  unfold extNormalize
  by_cases h : lowerList ('.' :: t) = htmlExt ∨ lowerList ('.' :: t) = htmExt
  · rw [if_pos h]
    exact ⟨['h', 't', 'm', 'l'], rfl, by decide⟩
  · rw [if_neg h]
    refine ⟨lowerList t, ?_, ?_⟩
    · simp [lowerList, show pyLower '.' = '.' from rfl]
    · intro c hc
      simp only [lowerList, List.mem_map] at hc
      obtain ⟨d, hd, hdc⟩ := hc
      exact hdc ▸ extSep_pyLower (ht d hd)

theorem extNormalize_idem (e : List Char) :
    extNormalize (extNormalize e) = extNormalize e := by
  unfold extNormalize
  by_cases h : lowerList e = htmlExt ∨ lowerList e = htmExt
  · rw [if_pos h, if_pos (by rw [show lowerList htmlExt = htmlExt from rfl]; exact Or.inl rfl)]
  · rw [if_neg h, lowerList_idem, if_neg h]

theorem allowed_ne_slash {c : Char} (h : isAllowed c = true) : c ≠ '/' := by
  have hn := isAllowed_toNat h
  intro he
  rw [he] at hn
  revert hn; decide

theorem validBase_head_ne_dot {s : List Char} (h : ValidBase s) :
    ∃ c ∈ s, c ≠ '.' := by
  obtain ⟨hne, _, hhead, _, _⟩ := h
  cases s with
  | nil => exact absurd rfl hne
  | cons a t =>
    refine ⟨a, List.mem_cons_self _ _, ?_⟩
    have := hhead a rfl
    simp only [isDashDot, Bool.or_eq_false_iff, beq_eq_false_iff_ne, ne_eq] at this
    exact this.2

theorem slugify_idem_of_ext {name : List Char} (h : (splitext name).2 ≠ []) :
    slugify_filename (slugify_filename name) = slugify_filename name := by
  rcases splitext_ext_shape name with he | ⟨t, he, ht⟩
  · exact absurd he h
  obtain ⟨t', he', ht'⟩ := extNormalize_shape ht
  have hvb := validBase_cleanBase (splitext name).1
  have hsplit : splitext (cleanBase (splitext name).1 ++ '.' :: t') =
      (cleanBase (splitext name).1, '.' :: t') := by
    apply splitext_append
    · exact fun c hc => allowed_ne_slash (hvb.2.1 c hc)
    · exact validBase_head_ne_dot hvb
    · exact ht'
  unfold slugify_filename
  rw [he, he', hsplit]
  simp only
  rw [cleanBase_of_valid hvb, ← he', extNormalize_idem]

theorem digitChar_toNat {m : Nat} (h : m < 10) : (Nat.digitChar m).toNat = m + 48 := by
  interval_cases m <;> rfl

theorem charsVal_append (l : List Char) (c : Char) :
    charsVal (l ++ [c]) = 10 * charsVal l + (c.toNat - 48) := by
  unfold charsVal
  rw [List.foldl_append]
  rfl

theorem charsVal_natToCharsGo :
    ∀ (fuel m : Nat), m < fuel → charsVal (natToCharsGo fuel m) = m := by
  intro fuel
  induction fuel with
  | zero => intro m h; omega
  | succ fuel ih =>
    intro m h
    rw [natToCharsGo]
    by_cases hm : m < 10
    · rw [if_pos hm]
      show 10 * 0 + ((Nat.digitChar m).toNat - 48) = m
      rw [digitChar_toNat hm]
      omega
    · rw [if_neg hm]
      rw [charsVal_append, ih (m / 10) (by omega), digitChar_toNat (by omega)]
      omega

theorem charsVal_natToChars (m : Nat) : charsVal (natToChars m) = m :=
  charsVal_natToCharsGo (m + 1) m (Nat.lt_succ_self m)

theorem natToChars_inj : Function.Injective natToChars := by
  intro a b hab
  have := charsVal_natToChars a
  rw [hab, charsVal_natToChars] at this
  exact this.symm

theorem mkCand_inj (base ext : List Char) : Function.Injective (mkCand base ext) := by
  intro i j hij
  unfold mkCand at hij
  have h1 := List.append_cancel_left hij
  injection h1 with _ h2
  exact natToChars_inj (List.append_cancel_right h2)

theorem resolveSuffix_not_mem (names : List (List Char)) (base ext : List Char) :
    resolveSuffix names base ext ∉ names := by
  unfold resolveSuffix
  set cands := (List.range (names.length + 1)).map fun k => mkCand base ext (k + 2)
    with hcands
  cases hfind : cands.find? (fun c => !names.contains c) with
  | some c =>
    have hp := List.find?_some hfind
    have hc : names.contains c = false := by simpa using hp
    intro hmem
    have hmem2 : c ∈ names := hmem
    have hct : names.contains c = true := by
      rw [List.contains_iff_exists_mem_beq]
      exact ⟨c, hmem2, by simp⟩
    rw [hct] at hc
    exact Bool.noConfusion hc
  | none =>
    exfalso
    have hall : ∀ c ∈ cands, c ∈ names := by
      intro c hc
      have := List.find?_eq_none.mp hfind c hc
      simp only [Bool.not_eq_eq_eq_not, Bool.not_true, Bool.not_eq_true,
        Bool.not_eq_false] at this
      simpa [List.contains_iff_exists_mem_beq] using this
    have hnodup : cands.Nodup := by
      rw [hcands]
      apply List.Nodup.map
      · intro a b hab
        have := mkCand_inj base ext hab
        omega
      · exact List.nodup_range _
    have hlen : cands.length ≤ names.length :=
      (hnodup.subperm hall).length_le
    rw [hcands] at hlen
    simp at hlen

theorem mem_namesOf {fs : List FSEntry} {e : FSEntry} (h : e ∈ fs) :
    e.name ∈ namesOf fs :=
  List.mem_map.mpr ⟨e, h, rfl⟩

theorem existsName_iff {fs : List FSEntry} {n : List Char} :
    existsName fs n = true ↔ n ∈ namesOf fs := by
  unfold existsName
  rw [List.contains_iff_exists_mem_beq]
  constructor
  · rintro ⟨m, hm, he⟩
    have : n = m := by simpa using he
    exact this ▸ hm
  · intro h
    exact ⟨n, h, by simp⟩

theorem htmlFiles_subset_names {fs : List FSEntry} {n : List Char}
    (h : n ∈ htmlFiles fs) : n ∈ namesOf fs := by
  unfold htmlFiles at h
  rw [List.mem_map] at h
  obtain ⟨e, he, hn⟩ := h
  exact hn ▸ mem_namesOf (List.mem_of_mem_filter he)

theorem mem_htmlFiles {fs : List FSEntry} {n : List Char} (h : n ∈ htmlFiles fs) :
    ∃ e ∈ fs, e.name = n ∧ e.isFile = true ∧ isHtmlName n = true := by
  unfold htmlFiles at h
  rw [List.mem_map] at h
  obtain ⟨e, he, hn⟩ := h
  have hmem := List.mem_of_mem_filter he
  have hprop := List.of_mem_filter he
  simp only [Bool.and_eq_true] at hprop
  exact ⟨e, hmem, hn, hprop.1, hn ▸ hprop.2⟩

/-- Every pair recorded by the planning fold either was already in the
accumulator or pairs a listed old name with a new name that is not on disk
and differs from the old name. -/
theorem foldl_planStep_mem {fs : List FSEntry} :
    ∀ (targets : List (List Char)) (acc : List (List Char × List Char))
      (p : List Char × List Char), p ∈ targets.foldl (planStep fs) acc →
      p ∈ acc ∨ (p.1 ∈ targets ∧ p.2 ∉ namesOf fs ∧ p.2 ≠ p.1) := by
  intro targets
  induction targets with
  | nil => intro acc p hp; exact Or.inl hp
  | cons o ts ih =>
    intro acc p hp
    rw [List.foldl_cons] at hp
    rcases ih (planStep fs acc o) p hp with hcase | ⟨h1, h2, h3⟩
    · simp only [planStep] at hcase
      split at hcase
      · rename_i hcol
        split at hcase
        · rename_i hne
          rw [List.mem_append] at hcase
          rcases hcase with hacc | hpair
          · exact Or.inl hacc
          · right
            rw [List.mem_singleton] at hpair
            subst hpair
            exact ⟨List.mem_cons_self _ _, resolveSuffix_not_mem _ _ _, hne⟩
        · exact Or.inl hcase
      · rename_i hcol
        split at hcase
        · rename_i hne
          rw [List.mem_append] at hcase
          rcases hcase with hacc | hpair
          · exact Or.inl hacc
          · right
            rw [List.mem_singleton] at hpair
            subst hpair
            refine ⟨List.mem_cons_self _ _, ?_, hne⟩
            rw [not_and] at hcol
            intro hmem
            exact hcol hne (existsName_iff.mpr hmem)
        · exact Or.inl hcase
    · exact Or.inr ⟨List.mem_cons_of_mem _ h1, h2, h3⟩

/-- The plan's keys are HTML-named files other than the dashboard, and the
plan's targets differ from their old names and never collide with any name
present on disk before the run. -/
theorem planFix_mem {fs : List FSEntry} {p : List Char × List Char}
    (hp : p ∈ buildRenameMapFix fs) :
    p.1 ∈ htmlFiles fs ∧ p.1 ≠ DASHBOARD ∧ p.2 ∉ namesOf fs ∧ p.2 ≠ p.1 := by
  unfold buildRenameMapFix at hp
  rcases foldl_planStep_mem _ _ p hp with h | ⟨h1, h2, h3⟩
  · simp at h
  · have hmem := List.mem_of_mem_filter h1
    have hne := List.of_mem_filter h1
    simp only [bne_iff_ne, ne_eq] at hne
    exact ⟨hmem, hne, h2, h3⟩

theorem find?_filter_of_imp {pr q : FSEntry → Bool} {l : List FSEntry}
    (h : ∀ a, pr a = true → q a = true) :
    (l.filter q).find? pr = l.find? pr := by
  induction l with
  | nil => rfl
  | cons a t ih =>
    by_cases hq : q a = true
    · rw [List.filter_cons_of_pos hq]
      by_cases hpr : pr a = true
      · rw [List.find?_cons_of_pos _ hpr, List.find?_cons_of_pos _ hpr]
      · rw [List.find?_cons_of_neg _ (by simp [hpr]),
          List.find?_cons_of_neg _ (by simp [hpr]), ih]
    · have hpr : pr a ≠ true := fun hc => hq (h a hc)
      rw [List.filter_cons_of_neg (by simpa using hq),
        List.find?_cons_of_neg _ (by simpa using hpr), ih]

theorem lookupFS_append (l1 l2 : List FSEntry) (n : List Char) :
    lookupFS (l1 ++ l2) n =
      match lookupFS l1 n with
      | some e => some e
      | none => lookupFS l2 n := by
  unfold lookupFS
  induction l1 with
  | nil => simp
  | cons a t ih =>
    by_cases ha : ((fun e : FSEntry => e.name == n) a) = true
    · rw [List.cons_append,
        List.find?_cons_of_pos (p := fun e : FSEntry => e.name == n) _ ha,
        List.find?_cons_of_pos (p := fun e : FSEntry => e.name == n) _ ha]
    · rw [List.cons_append,
        List.find?_cons_of_neg (p := fun e : FSEntry => e.name == n) _
          (by simpa using ha),
        List.find?_cons_of_neg (p := fun e : FSEntry => e.name == n) _
          (by simpa using ha), ih]

theorem lookupFS_renameFS_ne {fs : List FSEntry} {old new1 x : List Char}
    (h1 : x ≠ old) (h2 : x ≠ new1) :
    lookupFS (renameFS fs old new1) x = lookupFS fs x := by
  unfold renameFS
  cases hold : lookupFS fs old with
  | none => rfl
  | some e =>
    rw [lookupFS_append]
    have hfind : lookupFS (fs.filter fun x => !(x.name == old) && !(x.name == new1)) x =
        lookupFS fs x := by
      unfold lookupFS
      apply find?_filter_of_imp
      intro a ha
      have : a.name = x := by simpa using ha
      simp [this, h1, h2]
    rw [hfind]
    cases hx : lookupFS fs x with
    | none =>
      simp only
      unfold lookupFS
      rw [List.find?_cons_of_neg _ (p := fun e : FSEntry => e.name == x)
        (by simpa using Ne.symm h2), List.find?_nil]
    | some e2 => rfl

theorem lookupFS_applyRenames_ne {plan : List (List Char × List Char)} :
    ∀ {fs : List FSEntry} {x : List Char},
      (∀ p ∈ plan, x ≠ p.1 ∧ x ≠ p.2) →
      lookupFS (applyRenames plan fs) x = lookupFS fs x := by
  unfold applyRenames
  induction plan with
  | nil => intro fs x _; rfl
  | cons q qs ih =>
    intro fs x h
    rw [List.foldl_cons]
    have hq := h q (List.mem_cons_self _ _)
    rw [ih fun p hp => h p (List.mem_cons_of_mem _ hp)]
    exact lookupFS_renameFS_ne hq.1 hq.2

theorem find?_map_write {n content x : List Char} (h : x ≠ n) :
    ∀ fs : List FSEntry,
      (fs.map fun e => if e.name == n then { e with content := content } else e).find?
          (fun e => e.name == x) =
        fs.find? fun e => e.name == x := by
  intro fs
  induction fs with
  | nil => rfl
  | cons a t ih =>
    rw [List.map_cons]
    by_cases ha : (a.name == n) = true
    · have han : a.name = n := by simpa using ha
      rw [if_pos ha]
      have hax : a.name ≠ x := by rw [han]; exact Ne.symm h
      rw [List.find?_cons_of_neg _ (p := fun e : FSEntry => e.name == x)
        (by simpa using hax),
        List.find?_cons_of_neg _ (p := fun e : FSEntry => e.name == x)
        (by simpa using hax)]
      exact ih
    · rw [if_neg ha]
      by_cases hax : ((fun e : FSEntry => e.name == x) a) = true
      · rw [List.find?_cons_of_pos (p := fun e : FSEntry => e.name == x) _ hax,
          List.find?_cons_of_pos (p := fun e : FSEntry => e.name == x) _ hax]
      · rw [List.find?_cons_of_neg (p := fun e : FSEntry => e.name == x) _
          (by simpa using hax),
          List.find?_cons_of_neg (p := fun e : FSEntry => e.name == x) _
          (by simpa using hax)]
        exact ih

theorem lookupFS_writeFS_ne {fs : List FSEntry} {n content x : List Char}
    (h : x ≠ n) : lookupFS (writeFS fs n content) x = lookupFS fs x := by
  unfold writeFS
  by_cases he : existsName fs n = true
  · rw [if_pos he]
    exact find?_map_write h fs
  · rw [if_neg he, lookupFS_append]
    cases hx : lookupFS fs x with
    | none =>
      simp only
      unfold lookupFS
      rw [List.find?_cons_of_neg _ (p := fun e : FSEntry => e.name == x)
        (by simpa using Ne.symm h), List.find?_nil]
    | some e => rfl

theorem readContent_congr {fs1 fs2 : List FSEntry} {x : List Char}
    (h : lookupFS fs1 x = lookupFS fs2 x) : readContent fs1 x = readContent fs2 x := by
  unfold readContent
  rw [h]

/-- An entry whose name is neither a key nor a target of any plan pair
survives every rename verbatim. -/
theorem mem_renameFS_of_untouched {fs : List FSEntry} {e : FSEntry}
    {old new1 : List Char} (he : e ∈ fs) (h1 : e.name ≠ old) (h2 : e.name ≠ new1) :
    e ∈ renameFS fs old new1 := by
  unfold renameFS
  cases lookupFS fs old with
  | none => exact he
  | some e2 =>
    apply List.mem_append_left
    rw [List.mem_filter]
    exact ⟨he, by simp [h1, h2]⟩

theorem mem_applyRenames_of_untouched {plan : List (List Char × List Char)} :
    ∀ {fs : List FSEntry} {e : FSEntry}, e ∈ fs →
      (∀ p ∈ plan, e.name ≠ p.1 ∧ e.name ≠ p.2) →
      e ∈ applyRenames plan fs := by
  unfold applyRenames
  induction plan with
  | nil => intro fs e he _; exact he
  | cons q qs ih =>
    intro fs e he h
    rw [List.foldl_cons]
    apply ih _ fun p hp => h p (List.mem_cons_of_mem _ hp)
    have hq := h q (List.mem_cons_self _ _)
    exact mem_renameFS_of_untouched he hq.1 hq.2

/-- Every pair of the cleanup plan names an HTML file other than the
dashboard and maps it to its (different) slug. -/
theorem planCleanup_mem {fs : List FSEntry} {p : List Char × List Char}
    (hp : p ∈ buildRenameMapCleanup fs) :
    p.1 ∈ htmlFiles fs ∧ p.1 ≠ DASHBOARD ∧ p.2 = slugify_filename p.1 ∧ p.2 ≠ p.1 := by
  unfold buildRenameMapCleanup at hp
  rw [List.mem_filterMap] at hp
  obtain ⟨old, hold, heq⟩ := hp
  by_cases hs : slugify_filename old ≠ old
  · rw [if_pos hs] at heq
    injection heq with heq
    subst heq
    have hmem := List.mem_of_mem_filter hold
    have hne := List.of_mem_filter hold
    simp only [bne_iff_ne, ne_eq] at hne
    exact ⟨hmem, hne, rfl, hs⟩
  · rw [if_neg hs] at heq
    exact absurd heq (by simp)

/-- Every conflict value is a target of some plan pair. -/
theorem conflictsOf_values {fs : List FSEntry} {plan : List (List Char × List Char)}
    {c : List Char} (hc : c ∈ conflictsOf fs plan) : ∃ p ∈ plan, c = p.2 := by
  unfold conflictsOf at hc
  rw [List.mem_filterMap] at hc
  obtain ⟨p, hp, heq⟩ := hc
  by_cases he : existsName fs p.2 = true
  · rw [if_pos he] at heq
    injection heq with heq
    exact ⟨p, hp, heq.symm⟩
  · rw [if_neg he] at heq
    exact absurd heq (by simp)

/-- No character of a slug is an uppercase ASCII letter. -/
theorem not_upper_slugify {x : List Char} {c : Char} (hc : c ∈ slugify_filename x) :
    ¬(65 ≤ c.toNat ∧ c.toNat ≤ 90) := by
  unfold slugify_filename at hc
  rw [List.mem_append] at hc
  rcases hc with hc | hc
  · have hall := (validBase_cleanBase (splitext x).1).2.1 c hc
    have := isAllowed_toNat hall
    omega
  · unfold extNormalize at hc
    by_cases hif : lowerList (splitext x).2 = htmlExt ∨ lowerList (splitext x).2 = htmExt
    · rw [if_pos hif] at hc
      have hall : ∀ d ∈ htmlExt, ¬(65 ≤ d.toNat ∧ d.toNat ≤ 90) := by decide
      exact hall c hc
    · rw [if_neg hif] at hc
      unfold lowerList at hc
      rw [List.mem_map] at hc
      obtain ⟨d, _, hd⟩ := hc
      rcases pyLower_toNat (c := d) with ⟨_, _, h3⟩ | ⟨hno, h2⟩
      · rw [hd] at h3
        omega
      · rw [h2] at hd
        subst hd
        exact hno

/-- No slug ever equals the backup filename (which contains uppercase
letters). -/
theorem backup_ne_slugify (x : List Char) : slugify_filename x ≠ BACKUP := by
  intro h
  have hr : 'R' ∈ BACKUP := by decide
  rw [← h] at hr
  exact not_upper_slugify hr (by decide)

/-- An entry whose name is not the key of a cleanup rename step survives
that step verbatim: the step's destination is always free in the current
state, so it cannot collide with a present entry. -/
theorem mem_renameStepCleanup_of_untouched {acc : List FSEntry} {e : FSEntry}
    {p : List Char × List Char} (he : e ∈ acc) (h1 : e.name ≠ p.1) :
    e ∈ renameStepCleanup acc p := by
  unfold renameStepCleanup
  by_cases hpp : p.1 = p.2
  · rw [if_pos hpp]
    exact he
  · rw [if_neg hpp]
    apply mem_renameFS_of_untouched he h1
    by_cases hex : existsName acc p.2 = true
    · rw [if_pos hex]
      intro heq
      exact resolveSuffix_not_mem _ _ _ (heq ▸ mem_namesOf he)
    · rw [if_neg hex]
      intro heq
      exact hex (existsName_iff.mpr (heq ▸ mem_namesOf he))

/-- An entry whose name is no key of the plan survives the whole cleanup
rename loop verbatim, from any starting state. -/
theorem mem_renameLoopCleanup_of_untouched {plan : List (List Char × List Char)} :
    ∀ {fs : List FSEntry} {e : FSEntry}, e ∈ fs →
      (∀ p ∈ plan, e.name ≠ p.1) →
      e ∈ plan.foldl renameStepCleanup fs := by
  induction plan with
  | nil => intro fs e he _; exact he
  | cons q qs ih =>
    intro fs e he h
    rw [List.foldl_cons]
    apply ih _ fun p hp => h p (List.mem_cons_of_mem _ hp)
    exact mem_renameStepCleanup_of_untouched he (h q (List.mem_cons_self _ _))

theorem lookupFS_isSome {fs : List FSEntry} {x : List Char} :
    (lookupFS fs x).isSome = true ↔ x ∈ namesOf fs := by
  unfold lookupFS namesOf
  rw [List.find?_isSome]
  constructor
  · rintro ⟨e, he, hp⟩
    exact List.mem_map.mpr ⟨e, he, by simpa using hp⟩
  · intro h
    obtain ⟨e, he, hn⟩ := List.mem_map.mp h
    exact ⟨e, he, by simp [hn]⟩

theorem mainFix_dry (fs : List FSEntry) : mainFix fs true = fs := by
  unfold mainFix
  split
  · rfl
  · split <;> simp

theorem mainCleanup_dry (fs : List FSEntry) : mainCleanup fs true = fs := by
  unfold mainCleanup
  split
  · rfl
  · simp only [Bool.not_true, Bool.false_and]
    split <;> simp

theorem mainFix_noBlock {fs : List FSEntry}
    (hdash : DASHBOARD ∈ htmlFiles fs)
    (hblk : findBlock (readContent fs DASHBOARD) = none) :
    mainFix fs false = applyRenames (buildRenameMapFix fs) fs := by
  unfold mainFix
  rw [if_neg fun hn => hn hdash]
  simp only [hblk]
  simp

/-- The dashboard is never a key nor a target of the fix plan (keys exclude
it; targets never collide with names on disk, and the dashboard is on
disk). -/
theorem planFix_misses_dashboard {fs : List FSEntry}
    (hdash : DASHBOARD ∈ htmlFiles fs) :
    ∀ p ∈ buildRenameMapFix fs, DASHBOARD ≠ p.1 ∧ DASHBOARD ≠ p.2 := by
  intro p hp
  obtain ⟨_, hne, hnot, _⟩ := planFix_mem hp
  refine ⟨fun he => hne he.symm, fun he => ?_⟩
  exact hnot (he ▸ htmlFiles_subset_names hdash)

theorem dashboard_content_preserved {fs : List FSEntry}
    (hdash : DASHBOARD ∈ htmlFiles fs) :
    readContent (applyRenames (buildRenameMapFix fs) fs) DASHBOARD =
      readContent fs DASHBOARD :=
  readContent_congr (lookupFS_applyRenames_ne (planFix_misses_dashboard hdash))

theorem planFix_misses_backup {fs : List FSEntry} (hb : BACKUP ∈ namesOf fs) :
    ∀ p ∈ buildRenameMapFix fs, BACKUP ≠ p.1 ∧ BACKUP ≠ p.2 := by
  intro p hp
  obtain ⟨hhtml, _, hnot, _⟩ := planFix_mem hp
  constructor
  · intro he
    obtain ⟨e, _, _, _, hh⟩ := mem_htmlFiles hhtml
    rw [← he] at hh
    exact absurd hh (by decide)
  · intro he
    exact hnot (he ▸ hb)

theorem mainFix_backup_preserved {fs : List FSEntry} (hb : BACKUP ∈ namesOf fs) :
    lookupFS (mainFix fs false) BACKUP = lookupFS fs BACKUP := by
  unfold mainFix
  by_cases hdash : DASHBOARD ∉ htmlFiles fs
  · rw [if_pos hdash]
  · rw [if_neg hdash]
    have h1 : lookupFS (applyRenames (buildRenameMapFix fs) fs) BACKUP =
        lookupFS fs BACKUP :=
      lookupFS_applyRenames_ne (planFix_misses_backup hb)
    cases hfb : findBlock (readContent fs DASHBOARD) with
    | none =>
      simp only
      rw [if_neg (by simp)]
      exact h1
    | some triple =>
      obtain ⟨pre, body, post⟩ := triple
      simp only
      rw [if_neg (by simp)]
      have hbfs1 : BACKUP ∈ namesOf (applyRenames (buildRenameMapFix fs) fs) := by
        rw [← lookupFS_isSome, h1, lookupFS_isSome]
        exact hb
      rw [lookupFS_writeFS_ne (by decide : BACKUP ≠ DASHBOARD)]
      rw [if_pos (existsName_iff.mpr hbfs1)]
      exact h1

theorem mem_namesOf_of_lookup_eq {fs1 fs2 : List FSEntry} {x : List Char}
    (h : lookupFS fs2 x = lookupFS fs1 x) (hx : x ∈ namesOf fs1) : x ∈ namesOf fs2 := by
  rw [← lookupFS_isSome] at hx ⊢
  rw [h]
  exact hx

theorem lookupFS_mkOldDir_ne {fs : List FSEntry} {x : List Char} (h : x ≠ OLDDIR) :
    lookupFS (mkOldDir fs) x = lookupFS fs x := by
  unfold mkOldDir
  by_cases he : existsName fs OLDDIR = true
  · rw [if_pos he]
  · rw [if_neg he, lookupFS_append]
    cases hx : lookupFS fs x with
    | none =>
      simp only
      unfold lookupFS
      rw [List.find?_cons_of_neg _ (p := fun e : FSEntry => e.name == x)
        (by simpa using Ne.symm h), List.find?_nil]
    | some e => rfl

theorem lookupFS_moveOne_ne {acc : List FSEntry} {c x : List Char}
    (hx : x ∈ namesOf acc) (hc : x ≠ c) :
    lookupFS (moveOne acc c) x = lookupFS acc x := by
  unfold moveOne
  cases hl : lookupFS acc c with
  | none => rfl
  | some e =>
    rw [lookupFS_append]
    have hfind : lookupFS (acc.filter fun x2 => !(x2.name == c)) x = lookupFS acc x := by
      unfold lookupFS
      apply find?_filter_of_imp
      intro a ha
      have : a.name = x := by simpa using ha
      simp [this, hc]
    rw [hfind]
    cases hax : lookupFS acc x with
    | none =>
      have := lookupFS_isSome.mpr hx
      rw [hax] at this
      simp at this
    | some e2 => rfl

theorem lookupFS_moveFold_ne {x : List Char} :
    ∀ (cs : List (List Char)) (acc : List FSEntry), x ∈ namesOf acc →
      (∀ c ∈ cs, x ≠ c) →
      lookupFS (cs.foldl moveOne acc) x = lookupFS acc x := by
  intro cs
  induction cs with
  | nil => intro acc _ _; rfl
  | cons c cs2 ih =>
    intro acc hx h
    rw [List.foldl_cons]
    have h1 : lookupFS (moveOne acc c) x = lookupFS acc x :=
      lookupFS_moveOne_ne hx (h c (List.mem_cons_self _ _))
    rw [ih _ (mem_namesOf_of_lookup_eq h1 hx)
      fun c2 hc2 => h c2 (List.mem_cons_of_mem _ hc2), h1]

theorem lookupFS_moveConflicts_ne {fs : List FSEntry} {cs : List (List Char)}
    {x : List Char} (hx : x ∈ namesOf fs) (hOld : x ≠ OLDDIR)
    (hcs : ∀ c ∈ cs, x ≠ c) :
    lookupFS (moveConflicts fs cs) x = lookupFS fs x := by
  unfold moveConflicts
  have h0 : lookupFS (mkOldDir fs) x = lookupFS fs x := lookupFS_mkOldDir_ne hOld
  rw [lookupFS_moveFold_ne cs _ (mem_namesOf_of_lookup_eq h0 hx) hcs, h0]

theorem lookupFS_renameStepCleanup_ne {acc : List FSEntry}
    {p : List Char × List Char} {x : List Char}
    (hx : x ∈ namesOf acc) (h1 : x ≠ p.1) :
    lookupFS (renameStepCleanup acc p) x = lookupFS acc x := by
  unfold renameStepCleanup
  by_cases hpp : p.1 = p.2
  · rw [if_pos hpp]
  · rw [if_neg hpp]
    apply lookupFS_renameFS_ne h1
    by_cases hex : existsName acc p.2 = true
    · rw [if_pos hex]
      intro heq
      exact resolveSuffix_not_mem _ _ _ (heq ▸ hx)
    · rw [if_neg hex]
      intro heq
      exact hex (existsName_iff.mpr (heq ▸ hx))

theorem lookupFS_renameLoopCleanup_ne {x : List Char} :
    ∀ (plan : List (List Char × List Char)) (acc : List FSEntry),
      x ∈ namesOf acc → (∀ p ∈ plan, x ≠ p.1) →
      lookupFS (plan.foldl renameStepCleanup acc) x = lookupFS acc x := by
  intro plan
  induction plan with
  | nil => intro acc _ _; rfl
  | cons q qs ih =>
    intro acc hx h
    rw [List.foldl_cons]
    have h1 : lookupFS (renameStepCleanup acc q) x = lookupFS acc x :=
      lookupFS_renameStepCleanup_ne hx (h q (List.mem_cons_self _ _))
    rw [ih _ (mem_namesOf_of_lookup_eq h1 hx)
      fun p hp => h p (List.mem_cons_of_mem _ hp), h1]

theorem planCleanup_misses_backup {fs : List FSEntry} :
    ∀ p ∈ buildRenameMapCleanup fs, BACKUP ≠ p.1 := by
  intro p hp he
  obtain ⟨hhtml, _, _, _⟩ := planCleanup_mem hp
  obtain ⟨e, _, _, _, hh⟩ := mem_htmlFiles hhtml
  rw [← he] at hh
  exact absurd hh (by decide)

theorem mainCleanup_backup_preserved {fs : List FSEntry} (hb : BACKUP ∈ namesOf fs) :
    lookupFS (mainCleanup fs false) BACKUP = lookupFS fs BACKUP := by
  have hkeys : ∀ p ∈ buildRenameMapCleanup fs, BACKUP ≠ p.1 :=
    planCleanup_misses_backup
  have hcs : ∀ c ∈ conflictsOf fs (buildRenameMapCleanup fs), BACKUP ≠ c := by
    intro c hc
    obtain ⟨p, hp, hcp⟩ := conflictsOf_values hc
    obtain ⟨_, _, hslug, _⟩ := planCleanup_mem hp
    rw [hcp, hslug]
    exact fun he => backup_ne_slugify p.1 he.symm
  unfold mainCleanup
  by_cases hdash : DASHBOARD ∉ htmlFiles fs
  · rw [if_pos hdash]
  · rw [if_neg hdash]
    simp only [Bool.not_false, Bool.true_and]
    by_cases hconf : (!(conflictsOf fs (buildRenameMapCleanup fs)).isEmpty) = true
    · rw [if_pos hconf]
      have hM : lookupFS (moveConflicts fs (conflictsOf fs (buildRenameMapCleanup fs)))
          BACKUP = lookupFS fs BACKUP :=
        lookupFS_moveConflicts_ne hb (by decide) hcs
      have hbM : BACKUP ∈
          namesOf (moveConflicts fs (conflictsOf fs (buildRenameMapCleanup fs))) :=
        mem_namesOf_of_lookup_eq hM hb
      have h1 : lookupFS ((buildRenameMapCleanup fs).foldl renameStepCleanup
          (moveConflicts fs (conflictsOf fs (buildRenameMapCleanup fs)))) BACKUP =
          lookupFS fs BACKUP := by
        rw [lookupFS_renameLoopCleanup_ne _ _ hbM hkeys, hM]
      cases hfb : findBlock (readContent
          (moveConflicts fs (conflictsOf fs (buildRenameMapCleanup fs))) DASHBOARD) with
      | none =>
        simp only
        rw [if_neg (by simp)]
        exact h1
      | some triple =>
        obtain ⟨pre, body, post⟩ := triple
        simp only
        rw [if_neg (by simp)]
        have hbf1 : BACKUP ∈ namesOf ((buildRenameMapCleanup fs).foldl renameStepCleanup
            (moveConflicts fs (conflictsOf fs (buildRenameMapCleanup fs)))) :=
          mem_namesOf_of_lookup_eq h1 hb
        rw [lookupFS_writeFS_ne (by decide : BACKUP ≠ DASHBOARD)]
        rw [if_pos (existsName_iff.mpr hbf1)]
        exact h1
    · rw [if_neg hconf]
      have h1 : lookupFS ((buildRenameMapCleanup fs).foldl renameStepCleanup fs) BACKUP =
          lookupFS fs BACKUP :=
        lookupFS_renameLoopCleanup_ne _ _ hb hkeys
      cases hfb : findBlock (readContent fs DASHBOARD) with
      | none =>
        simp only
        rw [if_neg (by simp)]
        exact h1
      | some triple =>
        obtain ⟨pre, body, post⟩ := triple
        simp only
        rw [if_neg (by simp)]
        have hbf1 : BACKUP ∈
            namesOf ((buildRenameMapCleanup fs).foldl renameStepCleanup fs) :=
          mem_namesOf_of_lookup_eq h1 hb
        rw [lookupFS_writeFS_ne (by decide : BACKUP ≠ DASHBOARD)]
        rw [if_pos (existsName_iff.mpr hbf1)]
        exact h1

theorem mainAutoFix_backup_preserved {fs : List FSEntry} (hb : BACKUP ∈ namesOf fs) :
    lookupFS (mainAutoFix fs) BACKUP = lookupFS fs BACKUP := by
  unfold mainAutoFix
  by_cases hd : existsName fs DASHBOARD = true
  · rw [if_pos hd]
    rw [if_pos (existsName_iff.mpr hb)]
    by_cases hch : (oldVariants.foldl variantStep
        (retailSub (readContent fs DASHBOARD))).2 = true
    · rw [if_pos hch]
      exact lookupFS_writeFS_ne (by decide : BACKUP ≠ DASHBOARD)
    · rw [if_neg hch]
  · rw [if_neg hd]

theorem flatMap_raws (xs : List Char) :
    (xs.map Seg.raw).flatMap renderSeg = xs := by
  induction xs with
  | nil => rfl
  | cons a t ih => simp [renderSeg, ih]

theorem flatMap_raws_with (mp : List (List Char × List Char)) (xs : List Char) :
    (xs.map Seg.raw).flatMap (renderSegWith mp) = xs := by
  induction xs with
  | nil => rfl
  | cons a t ih => simp [renderSegWith, ih]

theorem flatMap_raws_rev (xs : List Char) :
    (List.map Seg.raw xs).reverse.flatMap renderSeg = xs.reverse := by
  rw [← List.map_reverse, flatMap_raws]

theorem flatMap_raws_rev_with (mp : List (List Char × List Char)) (xs : List Char) :
    (List.map Seg.raw xs).reverse.flatMap (renderSegWith mp) = xs.reverse := by
  rw [← List.map_reverse, flatMap_raws_with]

/-- Parsing loses no byte: rendering the decomposition verbatim restores
the input (with the pending state flushed in front). -/
theorem parseGo_render : ∀ (l : List Char) (st : Option (Char × List Char)),
    renderBlock (parseGo st l) =
      (match st with | none => [] | some (q, v) => q :: v.reverse) ++ l := by
  simp only [renderBlock]
  intro l
  induction l with
  | nil =>
    intro st
    match st with
    | none => rfl
    | some (q, v) =>
      simp [parseGo, renderSeg, flatMap_raws, flatMap_raws_rev]
  | cons c t ih =>
    intro st
    match st with
    | none =>
      rw [parseGo]
      by_cases hc : isQuote c = true
      · rw [if_pos hc, ih (some (c, []))]
        rfl
      · rw [if_neg hc]
        simp [renderSeg, ih none]
    | some (q, v) =>
      rw [parseGo]
      by_cases hc : isQuote c = true
      · rw [if_pos hc]
        by_cases hcq : c = q ∧ v ≠ []
        · rw [if_pos hcq]
          simp [renderSeg, ih none, hcq.1]
        · rw [if_neg hcq]
          simp [renderSeg, ih (some (c, [])), flatMap_raws, flatMap_raws_rev]
      · rw [if_neg hc, ih (some (q, c :: v))]
        simp

/-- Parsing a block loses no byte. -/
theorem parseBlock_render (l : List Char) : renderBlock (parseBlock l) = l :=
  parseGo_render l none

theorem parseGo_none_app_noquote {val : List Char}
    (h : ∀ x ∈ val, isQuote x = false) (rest : List Char) :
    parseGo none (val ++ rest) = val.map Seg.raw ++ parseGo none rest := by
  induction val with
  | nil => rfl
  | cons a t ih =>
    rw [List.cons_append, parseGo, if_neg (by simp [h a (List.mem_cons_self _ _)])]
    rw [ih fun x hx => h x (List.mem_cons_of_mem _ hx)]
    rfl

theorem parseGo_some_app_noquote {val : List Char} :
    ∀ {v : List Char}, (∀ x ∈ val, isQuote x = false) → ∀ (q : Char) (rest : List Char),
    parseGo (some (q, v)) (val ++ rest) = parseGo (some (q, val.reverse ++ v)) rest := by
  induction val with
  | nil => intro v _ q rest; rfl
  | cons a t ih =>
    intro v h q rest
    rw [List.cons_append, parseGo, if_neg (by simp [h a (List.mem_cons_self _ _)])]
    rw [ih (fun x hx => h x (List.mem_cons_of_mem _ hx)) q rest]
    simp

theorem all_of_dropWhile_nil {p : Char → Bool} :
    ∀ {l : List Char}, l.dropWhile p = [] → ∀ x ∈ l, p x = true := by
  intro l
  induction l with
  | nil => intro _ x hx; simp at hx
  | cons a t ih =>
    intro h x hx
    rw [List.dropWhile_cons] at h
    by_cases ha : p a = true
    · rw [if_pos ha] at h
      rcases List.mem_cons.mp hx with rfl | hx2
      · exact ha
      · exact ih h x hx2
    · rw [if_neg ha] at h
      exact absurd h (by simp)

/-- The substitution scan agrees with mapping the decomposition: the output
of `replace_urls_in_block` is exactly the block reassembled with every
parsed literal's content pushed through the map. -/
theorem replaceUrlsGo_renders (mp : List (List Char × List Char)) :
    ∀ (fuel : Nat) (l : List Char), l.length ≤ fuel →
      replaceUrlsGo mp fuel l = renderBlockWith mp (parseGo none l) := by
  intro fuel
  induction fuel with
  | zero =>
    intro l hl
    rw [List.eq_nil_of_length_eq_zero (Nat.le_zero.mp hl)]
    rfl
  | succ fuel ih =>
    intro l hl
    cases l with
    | nil => rfl
    | cons c t =>
      have hlt : t.length ≤ fuel := by simpa using hl
      by_cases hc : isQuote c = true
      · have hvalq : ∀ x ∈ t.takeWhile (fun d => !isQuote d), isQuote x = false := by
          intro x hx
          have := mem_takeWhile_pred hx
          simpa using this
        cases hrest : t.dropWhile (fun d => !isQuote d) with
        | nil =>
          have hallt : ∀ x ∈ t, isQuote x = false := by
            intro x hx
            simpa using all_of_dropWhile_nil hrest x hx
          have hL : replaceUrlsGo mp (fuel + 1) (c :: t) =
              c :: replaceUrlsGo mp fuel t := by
            rw [replaceUrlsGo, if_pos hc]
            simp only [hrest]
          have hpg : parseGo none (c :: t) = Seg.raw c :: t.map Seg.raw := by
            rw [parseGo, if_pos hc]
            have h2 := @parseGo_some_app_noquote t [] hallt c []
            rw [List.append_nil] at h2
            rw [h2, parseGo]
            simp
          have hpgt : parseGo none t = t.map Seg.raw := by
            have h2 := @parseGo_none_app_noquote t hallt []
            rw [List.append_nil] at h2
            rw [h2, parseGo, List.append_nil]
          rw [hL, ih t hlt, hpg, hpgt]
          simp only [renderBlockWith, List.flatMap_cons, renderSeg, renderSegWith]
          rw [flatMap_raws_with]
          rfl
        | cons d r =>
          have hd : isQuote d = true := by
            have hh : (t.dropWhile fun d => !isQuote d).head? = some d := by
              rw [hrest]; rfl
            have := head?_dropWhile_not hh
            simpa using this
          have ht : t = t.takeWhile (fun d => !isQuote d) ++ d :: r := by
            conv_lhs => rw [← List.takeWhile_append_dropWhile (p := fun d => !isQuote d)
              (l := t)]
            rw [hrest]
          have hlen : r.length ≤ fuel := by
            have h2 : t.length ≤ fuel := hlt
            rw [ht] at h2
            simp at h2
            omega
          by_cases hdc : (d == c && !(t.takeWhile fun d => !isQuote d).isEmpty) = true
          · have hL : replaceUrlsGo mp (fuel + 1) (c :: t) =
                c :: ((lookupMap mp (t.takeWhile fun d => !isQuote d)).getD
                  (t.takeWhile fun d => !isQuote d) ++ d :: replaceUrlsGo mp fuel r) := by
              rw [replaceUrlsGo, if_pos hc]
              simp only [hrest]
              rw [if_pos hdc]
            have hdeq : d = c := by
              have h2 := hdc
              simp only [Bool.and_eq_true, beq_iff_eq] at h2
              exact h2.1
            have hvne : (t.takeWhile fun d => !isQuote d) ≠ [] := by
              have h2 := hdc
              simp only [Bool.and_eq_true] at h2
              intro hnil
              rw [hnil] at h2
              simp at h2
            have hpg : parseGo none (c :: t) =
                Seg.lit c (t.takeWhile fun d => !isQuote d) :: parseGo none r := by
              rw [parseGo, if_pos hc]
              conv_lhs => rw [ht]
              rw [parseGo_some_app_noquote hvalq c (d :: r)]
              rw [parseGo, if_pos hd, if_pos ⟨hdeq, by simpa using hvne⟩]
              simp
            rw [hL, hpg]
            simp only [renderBlockWith, List.flatMap_cons, renderSegWith]
            rw [ih r hlen, hdeq]
            simp [renderBlockWith]
          · have hL : replaceUrlsGo mp (fuel + 1) (c :: t) =
                c :: replaceUrlsGo mp fuel t := by
              rw [replaceUrlsGo, if_pos hc]
              simp only [hrest]
              rw [if_neg hdc]
            have hpg : parseGo none (c :: t) =
                Seg.raw c :: ((t.takeWhile fun d => !isQuote d).map Seg.raw ++
                  parseGo (some (d, [])) r) := by
              rw [parseGo, if_pos hc]
              conv_lhs => rw [ht]
              rw [parseGo_some_app_noquote hvalq c (d :: r)]
              rw [parseGo, if_pos hd, if_neg]
              · simp
              · intro hcon
                apply hdc
                simp only [Bool.and_eq_true, beq_iff_eq]
                refine ⟨hcon.1, by simpa using hcon.2⟩
            have hpg2 : parseGo none t =
                (t.takeWhile fun d => !isQuote d).map Seg.raw ++
                  parseGo (some (d, [])) r := by
              conv_lhs => rw [ht]
              rw [parseGo_none_app_noquote hvalq, parseGo, if_pos hd]
            rw [hL, ih t hlt, hpg, hpg2]
            simp only [renderBlockWith, List.flatMap_cons, renderSegWith]
            rfl
      · have hL : replaceUrlsGo mp (fuel + 1) (c :: t) =
            c :: replaceUrlsGo mp fuel t := by
          rw [replaceUrlsGo, if_neg hc]
        have hpg : parseGo none (c :: t) = Seg.raw c :: parseGo none t := by
          rw [parseGo, if_neg hc]
        rw [hL, ih t hlt, hpg]
        simp only [renderBlockWith, List.flatMap_cons, renderSeg, renderSegWith]
        rfl

/-- `replace_urls_in_block` equals the decomposition-and-map reassembly. -/
theorem replaceUrls_renders (mp : List (List Char × List Char)) (l : List Char) :
    replaceUrls mp l = renderBlockWith mp (parseBlock l) :=
  replaceUrlsGo_renders mp l.length l Nat.le.refl

/-- Every literal produced by the scan has a quote character as its
delimiter and non-empty, quote-free content. -/
theorem parseGo_lit_sound :
    ∀ (l : List Char) (st : Option (Char × List Char)),
      (∀ q v, st = some (q, v) → isQuote q = true ∧ ∀ x ∈ v, isQuote x = false) →
      ∀ q' v', Seg.lit q' v' ∈ parseGo st l →
        isQuote q' = true ∧ v' ≠ [] ∧ ∀ x ∈ v', isQuote x = false := by
  intro l
  induction l with
  | nil =>
    intro st hst q' v' hmem
    match st with
    | none => simp [parseGo] at hmem
    | some (q, v) =>
      rw [parseGo] at hmem
      rcases List.mem_cons.mp hmem with h | h
      · exact absurd h (by simp)
      · rw [List.mem_map] at h
        obtain ⟨x, _, hx⟩ := h
        exact absurd hx (by simp)
  | cons c t ih =>
    intro st hst q' v' hmem
    match st with
    | none =>
      rw [parseGo] at hmem
      by_cases hc : isQuote c = true
      · rw [if_pos hc] at hmem
        refine ih (some (c, [])) ?_ q' v' hmem
        intro q v he
        injection he with he
        injection he with he1 he2
        subst he1
        subst he2
        exact ⟨hc, by simp⟩
      · rw [if_neg hc] at hmem
        rcases List.mem_cons.mp hmem with h | h
        · exact absurd h (by simp)
        · exact ih none (by simp) q' v' h
    | some (q, v) =>
      have hq := hst q v rfl
      rw [parseGo] at hmem
      by_cases hc : isQuote c = true
      · rw [if_pos hc] at hmem
        by_cases hcq : c = q ∧ v ≠ []
        · rw [if_pos hcq] at hmem
          rcases List.mem_cons.mp hmem with h | h
          · injection h with h1 h2
            subst h1
            subst h2
            refine ⟨hq.1, by simpa using hcq.2, ?_⟩
            intro x hx
            exact hq.2 x (List.mem_reverse.mp hx)
          · exact ih none (by simp) q' v' h
        · rw [if_neg hcq] at hmem
          rcases List.mem_cons.mp hmem with h | h
          · exact absurd h (by simp)
          · rw [List.mem_append] at h
            rcases h with h | h
            · rw [List.mem_map] at h
              obtain ⟨x, _, hx⟩ := h
              exact absurd hx (by simp)
            · refine ih (some (c, [])) ?_ q' v' h
              intro q2 v2 he
              injection he with he
              injection he with he1 he2
              subst he1
              subst he2
              exact ⟨hc, by simp⟩
      · rw [if_neg hc] at hmem
        refine ih (some (q, c :: v)) ?_ q' v' hmem
        intro q2 v2 he
        injection he with he
        injection he with he1 he2
        subst he1
        subst he2
        refine ⟨hq.1, ?_⟩
        intro x hx
        rcases List.mem_cons.mp hx with rfl | hx2
        · simpa using hc
        · exact hq.2 x hx2

/-- C1 (code bug): the claim states that the resolved targets in the rename
plan are pairwise distinct, and that the two files "Report (final).html" and
"Report (FINAL).html" resolve to "report-final.html" and
"report-final-2.html".  The planner of `fix_dpp_filenames.py` checks
collisions only against names existing on disk, not against targets already
planned, so both files are planned onto the same target
"report-final.html"; its commit then renames both onto that one name.
`dpp_cleanup.py` plans the same duplicate targets, and only its commit-time
`os.path.exists` fallback produces the claimed pair of names. -/
theorem claim_C1 :
    buildRenameMapFix fsScenarioB =
      [("Report (final).html".toList, "report-final.html".toList),
       ("Report (FINAL).html".toList, "report-final.html".toList)] ∧
    buildRenameMapCleanup fsScenarioB =
      [("Report (final).html".toList, "report-final.html".toList),
       ("Report (FINAL).html".toList, "report-final.html".toList)] ∧
    namesOf (mainCleanup fsScenarioB false) =
      [DASHBOARD, "report-final.html".toList, "report-final-2.html".toList] := by
  refine ⟨by decide, by decide, by decide⟩

/-- C2 (code bug): the claim states that after a commit every pre-existing
file still exists somewhere under the working tree.  On a directory where
two files slugify to the same target, `fix_dpp_filenames.py` renames both
onto that target and the second rename silently replaces the first, so the
first file's contents survive nowhere. -/
theorem claim_C2 :
    (∃ e ∈ fsLoss, e.content = "contentone".toList) ∧
    (mainFix fsLoss false).all (fun e => decide (e.content ≠ "contentone".toList))
      = true := by
  refine ⟨⟨⟨"A (x).html".toList, true, "contentone".toList⟩, by decide, rfl⟩, by decide⟩

/-- C3 (corrected): `slugify_filename` is idempotent on every input whose
`os.path.splitext` extension part is non-empty.  The unrestricted claim
fails: an extensionless name whose NFKC normalization introduces a dot can
gain a ".htm" extension that a second application upgrades to ".html". -/
theorem claim_C3 (name : List Char) (h : (splitext name).2 ≠ []) :
    slugify_filename (slugify_filename name) = slugify_filename name :=
  slugify_idem_of_ext h

/-- Witness for C3 at the input "My File.html". -/
theorem claim_C3_witness :
    (splitext "My File.html".toList).2 ≠ [] ∧
    slugify_filename (slugify_filename "My File.html".toList) =
      slugify_filename "My File.html".toList :=
  ⟨by decide, claim_C3 "My File.html".toList (by decide)⟩

/-- C3 counterexample: for the extensionless input "x‸htm" (with U+2024 ONE
DOT LEADER), `slugify_filename` returns "x.htm" and a second application
returns "x.html", so slugify(slugify x) differs from slugify x. -/
theorem claim_C3_counterexample :
    slugify_filename (slugify_filename ['x', dotLeader, 'h', 't', 'm']) ≠
      slugify_filename ['x', dotLeader, 'h', 't', 'm'] := by
  decide

/-- C4 (corrected): the base part of every slug is non-empty, consists only
of lowercase letters, digits, hyphens and dots, has no leading or trailing
hyphen or dot and no two consecutive hyphens; the slug is that base followed
by the normalized extension.  The unrestricted claim fails because the
extension part is only lowercased, never cleaned, so the full slug can
contain characters outside the class and more than one dot. -/
theorem claim_C4 (name : List Char) :
    ValidBase (cleanBase (splitext name).1) ∧
    slugify_filename name =
      cleanBase (splitext name).1 ++ extNormalize (splitext name).2 :=
  ⟨validBase_cleanBase _, rfl⟩

/-- C4 counterexample: slugify("a.t xt") = "a.t xt", which contains a space
— a character outside the claimed class — because the splitext extension
".t xt" is preserved except for lowercasing. -/
theorem claim_C4_counterexample :
    slugify_filename "a.t xt".toList = "a.t xt".toList ∧
    Char.ofNat 32 ∈ slugify_filename "a.t xt".toList ∧
    isAllowed (Char.ofNat 32) = false := by
  refine ⟨by decide, by decide, by decide⟩

/-- C5 (corrected): `replace_urls_in_block` decomposes the block into raw
bytes and quoted literals whose content is non-empty and quote-free; the
rewrite equals the reassembly of that decomposition with every literal
content pushed through the plan (quote characters preserved), and the
verbatim reassembly restores the block byte-for-byte.  Literals whose
content contains a quote character of either kind are never matched, which
is what refutes the unrestricted claim. -/
theorem claim_C5 (block : List Char) (mp : List (List Char × List Char)) :
    renderBlock (parseBlock block) = block ∧
    replaceUrls mp block = renderBlockWith mp (parseBlock block) ∧
    (∀ q v, Seg.lit q v ∈ parseBlock block →
      isQuote q = true ∧ v ≠ [] ∧ ∀ x ∈ v, isQuote x = false) :=
  ⟨parseBlock_render block, replaceUrls_renders mp block,
   fun q v h => parseGo_lit_sound block none (by simp) q v h⟩

/-- C5 counterexample: the block consisting of one double-quoted literal
with content a-quote-b is left byte-identical by the rewrite even though
that content is a key of the plan, contradicting the claim that every
matching-quote literal whose content is a plan key is replaced. -/
theorem claim_C5_counterexample :
    replaceUrls cexPlan cexBlock = cexBlock ∧
    cexBlock ≠ [dquote, 'c', dquote] := by
  refine ⟨by decide, by decide⟩

/-- C6 (confirmed): with dry_run set, both scripts compute and report the
plan but leave the directory state (files and dashboard bytes) exactly as
before the call. -/
theorem claim_C6 (fs : List FSEntry) : mainFix fs true = fs ∧ mainCleanup fs true = fs :=
  ⟨mainFix_dry fs, mainCleanup_dry fs⟩

/-- C7 (confirmed): when the dashboard contains no recognizable dppUrls
block the locator returns none, and the committing run still performs every
planned rename while skipping the mapping rewrite, the backup and the
document write: the resulting state is exactly the rename application, and
the dashboard's bytes are unchanged. -/
theorem claim_C7 (fs : List FSEntry) (hdash : DASHBOARD ∈ htmlFiles fs)
    (hblk : findBlock (readContent fs DASHBOARD) = none) :
    mainFix fs false = applyRenames (buildRenameMapFix fs) fs ∧
    readContent (mainFix fs false) DASHBOARD = readContent fs DASHBOARD := by
  refine ⟨mainFix_noBlock hdash hblk, ?_⟩
  rw [mainFix_noBlock hdash hblk]
  exact dashboard_content_preserved hdash

/-- Witness for C7 on a dashboard with no block and one pending rename. -/
theorem claim_C7_witness :
    DASHBOARD ∈ htmlFiles fsNoBlock ∧
    findBlock (readContent fsNoBlock DASHBOARD) = none ∧
    (mainFix fsNoBlock false = applyRenames (buildRenameMapFix fsNoBlock) fsNoBlock ∧
     readContent (mainFix fsNoBlock false) DASHBOARD =
       readContent fsNoBlock DASHBOARD) :=
  ⟨by decide, by decide, claim_C7 fsNoBlock (by decide) (by decide)⟩

/-- C8 (confirmed): on a committing run of any of the three writers
(`fix_dpp_filenames.py`, `dpp_cleanup.py`, `auto_fix_dashboard_mapping.py`),
a pre-existing backup file is never overwritten or modified: its entry and
bytes after the run are exactly its entry and bytes before. -/
theorem claim_C8 (fs : List FSEntry) (hb : BACKUP ∈ namesOf fs) :
    (lookupFS (mainFix fs false) BACKUP = lookupFS fs BACKUP ∧
     readContent (mainFix fs false) BACKUP = readContent fs BACKUP) ∧
    (lookupFS (mainCleanup fs false) BACKUP = lookupFS fs BACKUP ∧
     readContent (mainCleanup fs false) BACKUP = readContent fs BACKUP) ∧
    (lookupFS (mainAutoFix fs) BACKUP = lookupFS fs BACKUP ∧
     readContent (mainAutoFix fs) BACKUP = readContent fs BACKUP) :=
  ⟨⟨mainFix_backup_preserved hb, readContent_congr (mainFix_backup_preserved hb)⟩,
   ⟨mainCleanup_backup_preserved hb,
    readContent_congr (mainCleanup_backup_preserved hb)⟩,
   ⟨mainAutoFix_backup_preserved hb,
    readContent_congr (mainAutoFix_backup_preserved hb)⟩⟩

/-- Witness for C8 on a directory with a pre-existing backup, a dashboard
with a block and a pending rename. -/
theorem claim_C8_witness :
    BACKUP ∈ namesOf fsBk ∧
    ((lookupFS (mainFix fsBk false) BACKUP = lookupFS fsBk BACKUP ∧
      readContent (mainFix fsBk false) BACKUP = readContent fsBk BACKUP) ∧
     (lookupFS (mainCleanup fsBk false) BACKUP = lookupFS fsBk BACKUP ∧
      readContent (mainCleanup fsBk false) BACKUP = readContent fsBk BACKUP) ∧
     (lookupFS (mainAutoFix fsBk) BACKUP = lookupFS fsBk BACKUP ∧
      readContent (mainAutoFix fsBk) BACKUP = readContent fsBk BACKUP)) :=
  ⟨by decide, claim_C8 fsBk (by decide)⟩

/-- C9 (confirmed): slugify maps
"Rabateks DPP — Retail/Distribution Management.html" to exactly
"rabateks-dpp-retail-distribution-management.html". -/
theorem claim_C9 :
    slugify_filename ("Rabateks DPP ".toList ++ [emdash] ++
      " Retail/Distribution Management.html".toList) =
      "rabateks-dpp-retail-distribution-management.html".toList := by
  decide

/-- C10 (confirmed): in both renamers (`fix_dpp_filenames.py` and
`dpp_cleanup.py`), every key of the rename plan names a regular file with
an ".html"/".htm" (case-insensitive) name other than the dashboard, and
every directory entry whose name is not a key of the plan survives the
respective rename step verbatim (for cleanup, from whatever state the
rename loop starts in). -/
theorem claim_C10 (fs : List FSEntry) :
    (∀ p ∈ buildRenameMapFix fs,
      (∃ e ∈ fs, e.name = p.1 ∧ e.isFile = true) ∧ isHtmlName p.1 = true ∧
        p.1 ≠ DASHBOARD) ∧
    (∀ e ∈ fs, (∀ p ∈ buildRenameMapFix fs, e.name ≠ p.1) →
      e ∈ applyRenames (buildRenameMapFix fs) fs) ∧
    (∀ p ∈ buildRenameMapCleanup fs,
      (∃ e ∈ fs, e.name = p.1 ∧ e.isFile = true) ∧ isHtmlName p.1 = true ∧
        p.1 ≠ DASHBOARD) ∧
    (∀ fs2 : List FSEntry, ∀ e ∈ fs2,
      (∀ p ∈ buildRenameMapCleanup fs, e.name ≠ p.1) →
      e ∈ (buildRenameMapCleanup fs).foldl renameStepCleanup fs2) := by
  refine ⟨?_, ?_, ?_, ?_⟩
  · intro p hp
    obtain ⟨hhtml, hne, _, _⟩ := planFix_mem hp
    obtain ⟨e, he, hn, hf, hh⟩ := mem_htmlFiles hhtml
    exact ⟨⟨e, he, hn, hf⟩, hh, hne⟩
  · intro e he hkeys
    apply mem_applyRenames_of_untouched he
    intro p hp
    refine ⟨hkeys p hp, ?_⟩
    intro hval
    exact (planFix_mem hp).2.2.1 (hval ▸ mem_namesOf he)
  · intro p hp
    obtain ⟨hhtml, hne, _, _⟩ := planCleanup_mem hp
    obtain ⟨e, he, hn, hf, hh⟩ := mem_htmlFiles hhtml
    exact ⟨⟨e, he, hn, hf⟩, hh, hne⟩
  · intro fs2 e he hkeys
    exact mem_renameLoopCleanup_of_untouched he hkeys

/-- Witness for C10's untouched parts at a concrete directory. -/
theorem claim_C10_witness :
    (∀ p ∈ buildRenameMapFix fsNoBlock,
      (∃ e ∈ fsNoBlock, e.name = p.1 ∧ e.isFile = true) ∧ isHtmlName p.1 = true ∧
        p.1 ≠ DASHBOARD) ∧
    (∀ e ∈ fsNoBlock, (∀ p ∈ buildRenameMapFix fsNoBlock, e.name ≠ p.1) →
      e ∈ applyRenames (buildRenameMapFix fsNoBlock) fsNoBlock) ∧
    (∀ p ∈ buildRenameMapCleanup fsNoBlock,
      (∃ e ∈ fsNoBlock, e.name = p.1 ∧ e.isFile = true) ∧ isHtmlName p.1 = true ∧
        p.1 ≠ DASHBOARD) ∧
    (∀ fs2 : List FSEntry, ∀ e ∈ fs2,
      (∀ p ∈ buildRenameMapCleanup fsNoBlock, e.name ≠ p.1) →
      e ∈ (buildRenameMapCleanup fsNoBlock).foldl renameStepCleanup fs2) :=
  claim_C10 fsNoBlock

end DPP
